import Mathlib

/-!
Shallow embedding of the ucm frame codec from `trm/ucm/__init__.py`:
the byte-level decoder (`_check_ucm`, `_rucm`), the encoder (`Ucm.write`),
the `Ucm` data model, structural equality (`Ucm.__eq__`) and the per-CCD
reductions (`Ucm.min`, `Ucm.max`).

Bytes are naturals (0..255 on real streams); float32 and float64 values are
represented by their IEEE-754 bit patterns (naturals below 2^32 / 2^64),
which serialize and deserialize bit-exactly, as the numpy/struct calls in
the source do.  Errors raised by the Python code are modelled by an
`Except` error, one constructor per raise site (including the runtime
errors the source can produce: unbound locals, index errors, empty
reductions).
-/

namespace UcmSpec

/-- Error outcomes of the codec, one constructor per raise site of the
source (including Python runtime errors on the paths the source leaves
unguarded). -/
inductive UErr
  /-- raise in `_check_ucm` when neither byte order matches the magic -/
  | magic
  /-- raise `Exception('Hitem: ... not enabled')` for a reserved type tag,
  in both `Ucm.write` and `_rucm` -/
  | notEnabled (t : Int)
  /-- raise `Exception('Hitem: type ... not recognised')` in `Ucm.write` -/
  | unknownTypeWrite (t : Int)
  /-- raise `Exception('Ultracam data output type iout ... not recognised')`
  in `_rucm` -/
  | ioutBad (i : Int)
  /-- UnboundLocalError: `_rucm` stores `value` for an unknown type tag
  before any supported item assigned it -/
  | unboundLocal
  /-- UnboundLocalError: `_rucm` returns `xbin`..`nytot` although no window
  record was ever read -/
  | unboundBins
  /-- struct.error / ValueError on a truncated stream -/
  | eof
  /-- error from a negative length prefix -/
  | badLength
  /-- ValueError from `reshape` when a window declares a negative dimension -/
  | negDim
  /-- struct.error: packed value outside the range of its format code -/
  | packRange
  /-- struct.error / TypeError: header value shape does not match its tag -/
  | packMismatch
  /-- IndexError: `off[nc][nw]` missing for a window being written/compared -/
  | indexError
  /-- ValueError from a numpy reduction over an empty window -/
  | emptyReduction
deriving DecidableEq

/-- Decidable equality of codec results, for evaluating the codec on
concrete inputs inside proofs. -/
instance {α β : Type} [DecidableEq α] [DecidableEq β] :
    DecidableEq (Except α β) := fun a b =>
  match a, b with
  | .ok x, .ok y =>
    if h : x = y then .isTrue (by rw [h]) else .isFalse (by simp [h])
  | .error x, .error y =>
    if h : x = y then .isTrue (by rw [h]) else .isFalse (by simp [h])
  | .ok _, .error _ => .isFalse (by simp)
  | .error _, .ok _ => .isFalse (by simp)

/-- Byte order of a stream: `native` models the default struct format
(little-endian host), `big` models the swapped order format `>`. -/
inductive ByteOrder
  | native
  | big
deriving DecidableEq

/-- ucm magic number (module constant `MAGIC`). -/
def MAGIC : Int := 47561009

-- Integer type numbers (module constants ITYPE_*)
def ITYPE_DOUBLE    : Int := 0
def ITYPE_CHAR      : Int := 1
def ITYPE_INT       : Int := 2
def ITYPE_UINT      : Int := 3
def ITYPE_LINT      : Int := 4
def ITYPE_ULINT     : Int := 5
def ITYPE_FLOAT     : Int := 6
def ITYPE_STRING    : Int := 7
def ITYPE_BOOL      : Int := 8
def ITYPE_DIR       : Int := 9
def ITYPE_DATE      : Int := 10
def ITYPE_TIME      : Int := 11
def ITYPE_POSITION  : Int := 12
def ITYPE_DVECTOR   : Int := 13
def ITYPE_UCHAR     : Int := 14
def ITYPE_TELESCOPE : Int := 15
def ITYPE_USINT     : Int := 16
def ITYPE_IVECTOR   : Int := 17
def ITYPE_FVECTOR   : Int := 18

attribute [simp] ITYPE_DOUBLE ITYPE_CHAR ITYPE_INT ITYPE_UINT ITYPE_LINT
  ITYPE_ULINT ITYPE_FLOAT ITYPE_STRING ITYPE_BOOL ITYPE_DIR ITYPE_DATE
  ITYPE_TIME ITYPE_POSITION ITYPE_DVECTOR ITYPE_UCHAR ITYPE_TELESCOPE
  ITYPE_USINT ITYPE_IVECTOR ITYPE_FVECTOR

/-- Little-endian byte list of width `w` for a natural (low byte first);
values at or above `256^w` are truncated, as `struct.pack` of unsigned
fields never sees them on the paths the source takes. -/
def leBytes : Nat → Nat → List Nat
  | 0, _ => []
  | w+1, n => n % 256 :: leBytes w (n / 256)

/-- Pack a natural into `w` bytes in the given byte order (an unsigned
struct format field). -/
def pkU (ord : ByteOrder) (w n : Nat) : List Nat :=
  match ord with
  | .native => leBytes w n
  | .big => (leBytes w n).reverse

/-- Unpack bytes into a natural in the given byte order (an unsigned
struct format field). -/
def unU (ord : ByteOrder) (bs : List Nat) : Nat :=
  match ord with
  | .native => bs.foldr (fun b acc => b + 256 * acc) 0
  | .big => bs.foldl (fun acc b => 256 * acc + b) 0

/-- Interpret a 32-bit unsigned value as a signed int32 (struct format
code `i`). -/
def toI32 (u : Nat) : Int :=
  if u < 2^31 then (u : Int) else (u : Int) - 2^32

/-- Unsigned 32-bit representative of a signed int32. -/
def ofI32 (v : Int) : Nat := (v % 2^32).toNat

/-- Pack a signed int32 (struct.pack format `i`); struct.error outside the
int32 range. -/
def pkI32 (ord : ByteOrder) (v : Int) : Except UErr (List Nat) :=
  if -(2^31) ≤ v ∧ v < 2^31 then .ok (pkU ord 4 (ofI32 v)) else .error .packRange

/-- Header value payloads: the runtime shapes `_rucm` can store and
`Ucm.write` can pack.  float32/float64 scalars and vector elements are
bit patterns. -/
inductive HVal
  | vdouble (b : Nat)
  | vint (v : Int)
  | vuint (v : Nat)
  | vfloat (b : Nat)
  | vstring (s : List Nat)
  | vbool (v : Nat)
  | vnone
  | vtime (mjd : Int) (hour : Nat)
  | vdvector (xs : List Nat)
  | vuchar (c : Nat)
  | vusint (v : Nat)
  | vivector (xs : List Int)
  | vfvector (xs : List Nat)
deriving DecidableEq

/-- One header entry: the dict `{'value': v, 'comment': c, 'type': t}`
stored under a name in the Ucm ordered dictionary. -/
structure HItem where
  itype : Int
  comment : List Nat
  value : HVal
deriving DecidableEq

/-- One window: a 2-D numpy float32 array of shape `(ny, nx)`; `pix` lists
the float32 bit patterns row-major. -/
structure Win where
  ny : Nat
  nx : Nat
  pix : List Nat
deriving DecidableEq

/-- The Ucm frame: ordered header (name / item pairs in insertion order),
`data[nc][nw]` windows, `off[nc][nw]` lower-left offsets, and the
frame-level binning / extent fields. -/
structure UcmF where
  head : List (List Nat × HItem)
  data : List (List Win)
  off : List (List (Int × Int))
  xbin : Int
  ybin : Int
  nxtot : Int
  nytot : Int
deriving DecidableEq

/-- Ordered-dictionary insertion: overwrite in place if the key exists,
else append (Odict assignment `head[name] = ...`). -/
def odInsert (h : List (List Nat × HItem)) (k : List Nat) (v : HItem) :
    List (List Nat × HItem) :=
  match h with
  | [] => [(k, v)]
  | (k1, v1) :: t => if k1 = k then (k, v) :: t else (k1, v1) :: odInsert t k v

/-- Read exactly `n` bytes (file read + struct.unpack; short data is a
struct.error). -/
def rdBytes (n : Nat) (s : List Nat) : Except UErr (List Nat × List Nat) :=
  if n ≤ s.length then .ok (s.take n, s.drop n) else .error .eof

/-- Read a `w`-byte unsigned field. -/
def rdU (ord : ByteOrder) (w : Nat) (s : List Nat) :
    Except UErr (Nat × List Nat) := do
  let (bs, s1) ← rdBytes w s
  .ok (unU ord bs, s1)

/-- Read a signed int32 field (struct.unpack format `i`). -/
def rdI32 (ord : ByteOrder) (s : List Nat) : Except UErr (Int × List Nat) := do
  let (u, s1) ← rdU ord 4 s
  .ok (toI32 u, s1)

/-- Read `n` unsigned fields of width `w` (one struct.unpack of a counted
format, as the vector payloads use). -/
def rdUVec (ord : ByteOrder) (w : Nat) : Nat → List Nat → Except UErr (List Nat × List Nat)
  | 0, s => .ok ([], s)
  | n+1, s => do
    let (x, s1) ← rdU ord w s
    let (xs, s2) ← rdUVec ord w n s1
    .ok (x :: xs, s2)

/-- Modelled from the spec: `trm.subs.cpp.read_string` is not part of this
repository; per spec section 4.2 it reads a 32-bit length prefix in the
stream byte order, then exactly that many raw bytes.  A negative length is
modelled as a failure. -/
def read_string (ord : ByteOrder) (s : List Nat) :
    Except UErr (List Nat × List Nat) := do
  let (n, s1) ← rdI32 ord s
  if n < 0 then .error .badLength else rdBytes n.toNat s1

/-- Decode one header value given its type tag: the `elif` chain of
`_rucm`.  `prev` is the current contents of the loop-local `value`
variable: a tag matching no branch leaves it unchanged (there is no final
`else`), and referencing it before any assignment is an
UnboundLocalError. -/
def readHVal (ord : ByteOrder) (itype : Int) (prev : Option HVal)
    (s : List Nat) : Except UErr (HVal × List Nat) :=
  if itype = ITYPE_DOUBLE then do
    let (b, s1) ← rdU ord 8 s
    .ok (.vdouble b, s1)
  else if itype = ITYPE_CHAR then .error (.notEnabled itype)
  else if itype = ITYPE_INT then do
    let (v, s1) ← rdI32 ord s
    .ok (.vint v, s1)
  else if itype = ITYPE_UINT then do
    let (v, s1) ← rdU ord 4 s
    .ok (.vuint v, s1)
  else if itype = ITYPE_LINT then .error (.notEnabled itype)
  else if itype = ITYPE_ULINT then .error (.notEnabled itype)
  else if itype = ITYPE_FLOAT then do
    let (b, s1) ← rdU ord 4 s
    .ok (.vfloat b, s1)
  else if itype = ITYPE_STRING then do
    let (str, s1) ← read_string ord s
    .ok (.vstring str, s1)
  else if itype = ITYPE_BOOL then do
    let (v, s1) ← rdU ord 1 s
    .ok (.vbool v, s1)
  else if itype = ITYPE_DIR then .ok (.vnone, s)
  else if itype = ITYPE_DATE then .error (.notEnabled itype)
  else if itype = ITYPE_TIME then do
    let (mjd, s1) ← rdI32 ord s
    let (hour, s2) ← rdU ord 8 s1
    .ok (.vtime mjd hour, s2)
  else if itype = ITYPE_POSITION then .error (.notEnabled itype)
  else if itype = ITYPE_DVECTOR then do
    let (nvec, s1) ← rdI32 ord s
    if nvec < 0 then .error .badLength else do
      let (xs, s2) ← rdUVec ord 8 nvec.toNat s1
      .ok (.vdvector xs, s2)
  else if itype = ITYPE_UCHAR then do
    let (c, s1) ← rdU ord 1 s
    .ok (.vuchar c, s1)
  else if itype = ITYPE_TELESCOPE then .error (.notEnabled itype)
  else if itype = ITYPE_USINT then do
    let (v, s1) ← rdU ord 2 s
    .ok (.vusint v, s1)
  else if itype = ITYPE_IVECTOR then do
    let (nvec, s1) ← rdI32 ord s
    if nvec < 0 then .error .badLength else do
      let (xs, s2) ← rdUVec ord 4 nvec.toNat s1
      .ok (.vivector (xs.map toI32), s2)
  else if itype = ITYPE_FVECTOR then do
    let (nvec, s1) ← rdI32 ord s
    if nvec < 0 then .error .badLength else do
      let (xs, s2) ← rdUVec ord 4 nvec.toNat s1
      .ok (.vfvector xs, s2)
  else
    match prev with
    | some v => .ok (v, s)
    | none => .error .unboundLocal

/-- Decode `n` header items (the `for i in xrange(lmap)` loop of `_rucm`):
name, type tag, comment, payload; items accumulate by ordered-dictionary
insertion, and the loop-local `value` is threaded between iterations. -/
def readHItems (ord : ByteOrder) :
    Nat → Option HVal → List (List Nat × HItem) → List Nat →
    Except UErr (List (List Nat × HItem) × List Nat)
  | 0, _, acc, s => .ok (acc, s)
  | n+1, prev, acc, s => do
    let (name, s1) ← read_string ord s
    let (itype, s2) ← rdI32 ord s1
    let (comment, s3) ← read_string ord s2
    let (value, s4) ← readHVal ord itype prev s3
    readHItems ord n (some value) (odInsert acc name ⟨itype, comment, value⟩) s4

/-- Bit pattern of the float32 whose value is the natural `n` (exact for
`n < 2^24`): models the numpy cast of a uint16 array to float32 performed
by `_rucm` for `iout = 1`. -/
def f32OfNat (n : Nat) : Nat :=
  if n = 0 then 0
  else (n.log2 + 127) * 2^23 + (n * 2^(23 - n.log2) - 2^23)

/-- Frame-level binning / extent fields as read from a window record. -/
abbrev Bins := Int × Int × Int × Int

/-- Decode one window record: eight int32 fields, the `iout` selector, then
the pixel payload.  The payload is read by `numpy.fromfile`, which uses the
machine (native) byte order: the detected stream order is not applied to
pixels in the source.  `iout = 0` reads float32 bit patterns, `iout = 1`
reads uint16 values and widens them to float32, any other `iout` raises.
A negative `nx` or `ny` sends the source down numpy count / reshape error
paths, modelled as a failure. -/
def readWin (ord : ByteOrder) (s : List Nat) :
    Except UErr ((Int × Int) × Win × Bins × List Nat) := do
  let (llx, s1) ← rdI32 ord s
  let (lly, s2) ← rdI32 ord s1
  let (nx, s3) ← rdI32 ord s2
  let (ny, s4) ← rdI32 ord s3
  let (xbin, s5) ← rdI32 ord s4
  let (ybin, s6) ← rdI32 ord s5
  let (nxtot, s7) ← rdI32 ord s6
  let (nytot, s8) ← rdI32 ord s7
  let (iout, s9) ← rdI32 ord s8
  if iout = 0 then
    if nx < 0 ∨ ny < 0 then .error .negDim
    else do
      let (pix, s10) ← rdUVec .native 4 (nx.toNat * ny.toNat) s9
      .ok ((llx, lly), ⟨ny.toNat, nx.toNat, pix⟩, (xbin, ybin, nxtot, nytot), s10)
  else if iout = 1 then
    if nx < 0 ∨ ny < 0 then .error .negDim
    else do
      let (raw, s10) ← rdUVec .native 2 (nx.toNat * ny.toNat) s9
      .ok ((llx, lly), ⟨ny.toNat, nx.toNat, raw.map f32OfNat⟩,
        (xbin, ybin, nxtot, nytot), s10)
  else .error (.ioutBad iout)

/-- Decode `n` window records of one CCD, threading the loop-local
`xbin`..`nytot` variables (each record read overwrites them). -/
def readWins (ord : ByteOrder) :
    Nat → Option Bins → List Nat →
    Except UErr (List Win × List (Int × Int) × Option Bins × List Nat)
  | 0, bins, s => .ok ([], [], bins, s)
  | n+1, _, s => do
    let (o, w, b, s1) ← readWin ord s
    let (ws, os, bfin, s2) ← readWins ord n (some b) s1
    .ok (w :: ws, o :: os, bfin, s2)

/-- Decode `n` CCDs (window count then windows each), threading the
loop-local binning variables across CCDs. -/
def readCCDs (ord : ByteOrder) :
    Nat → Option Bins → List Nat →
    Except UErr (List (List Win) × List (List (Int × Int)) × Option Bins × List Nat)
  | 0, bins, s => .ok ([], [], bins, s)
  | n+1, bins, s => do
    let (nwin, s1) ← rdI32 ord s
    let (ws, os, bins1, s2) ← readWins ord nwin.toNat bins s1
    let (cs, cos, bins2, s3) ← readCCDs ord n bins1 s2
    .ok (ws :: cs, os :: cos, bins2, s3)

/-- Endianness detection (`_check_ucm`): read 4 bytes, compare to the magic
in native order, then in swapped order, else fail (the source closes the
stream and raises). -/
def check_ucm (s : List Nat) : Except UErr (ByteOrder × List Nat) := do
  let (fbytes, s1) ← rdBytes 4 s
  if toI32 (unU .native fbytes) = MAGIC then .ok (.native, s1)
  else if toI32 (unU .big fbytes) = MAGIC then .ok (.big, s1)
  else .error .magic

/-- Full decode (`_rucm`): magic / byte order, header item count and items,
CCD count and CCDs; the frame-level binning fields are whatever the
loop-local variables hold after the last window read, and are unbound (a
runtime error) when no window was read at all.  Trailing bytes are
ignored, as the source never checks for the end of the file. -/
def rucm (s : List Nat) : Except UErr UcmF := do
  let (ord, s1) ← check_ucm s
  let (lmap, s2) ← rdI32 ord s1
  let (head, s3) ← readHItems ord lmap.toNat none [] s2
  let (nccd, s4) ← rdI32 ord s3
  let (data, off, bins, _) ← readCCDs ord nccd.toNat none s4
  match bins with
  | none => .error .unboundBins
  | some (xb, yb, nxt, nyt) => .ok ⟨head, data, off, xb, yb, nxt, nyt⟩

/-- Modelled from the spec: `trm.subs.cpp.write_string` is not part of this
repository; per spec section 4.2 it writes a 32-bit length prefix followed
by the raw bytes.  `Ucm.write` calls it without a byte-order argument, so
the prefix is packed in native order. -/
def write_string (k : List Nat) : Except UErr (List Nat) := do
  let lb ← pkI32 .native (k.length : Int)
  .ok (lb ++ k)

/-- Encode one header value given its type tag: the `elif` chain of
`Ucm.write`.  Reserved tags raise; a value whose runtime shape does not
match its tag is a struct packing error; the final `else` raises for a tag
outside the table. -/
def writeHVal (itype : Int) (v : HVal) : Except UErr (List Nat) :=
  if itype = ITYPE_DOUBLE then
    match v with
    | .vdouble b => .ok (pkU .native 8 b)
    | _ => .error .packMismatch
  else if itype = ITYPE_CHAR then .error (.notEnabled itype)
  else if itype = ITYPE_INT then
    match v with
    | .vint n => pkI32 .native n
    | _ => .error .packMismatch
  else if itype = ITYPE_UINT then
    match v with
    | .vuint n => if n < 2^32 then .ok (pkU .native 4 n) else .error .packRange
    | _ => .error .packMismatch
  else if itype = ITYPE_LINT then .error (.notEnabled itype)
  else if itype = ITYPE_ULINT then .error (.notEnabled itype)
  else if itype = ITYPE_FLOAT then
    match v with
    | .vfloat b => .ok (pkU .native 4 b)
    | _ => .error .packMismatch
  else if itype = ITYPE_STRING then
    match v with
    | .vstring str => write_string str
    | _ => .error .packMismatch
  else if itype = ITYPE_BOOL then
    match v with
    | .vbool n => if n < 2^8 then .ok (pkU .native 1 n) else .error .packRange
    | _ => .error .packMismatch
  else if itype = ITYPE_DIR then .ok []
  else if itype = ITYPE_DATE then .error (.notEnabled itype)
  else if itype = ITYPE_TIME then
    match v with
    | .vtime mjd hour => do
      let mb ← pkI32 .native mjd
      .ok (mb ++ pkU .native 8 hour)
    | _ => .error .packMismatch
  else if itype = ITYPE_POSITION then .error (.notEnabled itype)
  else if itype = ITYPE_DVECTOR then
    match v with
    | .vdvector xs => do
      let lb ← pkI32 .native (xs.length : Int)
      .ok (lb ++ (xs.map (pkU .native 8)).flatten)
    | _ => .error .packMismatch
  else if itype = ITYPE_UCHAR then
    match v with
    | .vuchar c => if c < 2^8 then .ok (pkU .native 1 c) else .error .packRange
    | _ => .error .packMismatch
  else if itype = ITYPE_TELESCOPE then .error (.notEnabled itype)
  else if itype = ITYPE_USINT then
    match v with
    | .vusint n => if n < 2^16 then .ok (pkU .native 2 n) else .error .packRange
    | _ => .error .packMismatch
  else if itype = ITYPE_IVECTOR then
    match v with
    | .vivector xs => do
      let lb ← pkI32 .native (xs.length : Int)
      let elems ← xs.mapM (pkI32 .native)
      .ok (lb ++ elems.flatten)
    | _ => .error .packMismatch
  else if itype = ITYPE_FVECTOR then
    match v with
    | .vfvector xs => do
      let lb ← pkI32 .native (xs.length : Int)
      .ok (lb ++ (xs.map (pkU .native 4)).flatten)
    | _ => .error .packMismatch
  else .error (.unknownTypeWrite itype)

/-- Encode one header entry: name, type tag, comment, payload, in that
order (`Ucm.write` loop body). -/
def writeHItem (name : List Nat) (it : HItem) : Except UErr (List Nat) := do
  let nb ← write_string name
  let tb ← pkI32 .native it.itype
  let cb ← write_string it.comment
  let vb ← writeHVal it.itype it.value
  .ok (nb ++ tb ++ cb ++ vb)

/-- Encode all header entries in insertion order. -/
def writeHItems : List (List Nat × HItem) → Except UErr (List Nat)
  | [] => .ok []
  | (name, it) :: t => do
    let b ← writeHItem name it
    let r ← writeHItems t
    .ok (b ++ r)

/-- Encode one window: `off[nc][nw]` offsets, shape, the frame-level
binning fields, `iout = 0`, then the float32 pixel patterns in native
order (`struct.pack('9i', ...)` followed by `tofile`). -/
def writeWin (o : Int × Int) (w : Win) (xbin ybin nxtot nytot : Int) :
    Except UErr (List Nat) := do
  let f1 ← pkI32 .native o.1
  let f2 ← pkI32 .native o.2
  let f3 ← pkI32 .native (w.nx : Int)
  let f4 ← pkI32 .native (w.ny : Int)
  let f5 ← pkI32 .native xbin
  let f6 ← pkI32 .native ybin
  let f7 ← pkI32 .native nxtot
  let f8 ← pkI32 .native nytot
  let f9 ← pkI32 .native 0
  .ok (f1 ++ f2 ++ f3 ++ f4 ++ f5 ++ f6 ++ f7 ++ f8 ++ f9 ++
    (w.pix.map (pkU .native 4)).flatten)

/-- Encode the windows of one CCD; `off[nc][nw]` is looked up per window,
an IndexError when the offset list is too short. -/
def writeWins (xbin ybin nxtot nytot : Int) :
    List Win → List (Int × Int) → Except UErr (List Nat)
  | [], _ => .ok []
  | w :: ws, os =>
    match os with
    | [] => .error .indexError
    | o :: os1 => do
      let b ← writeWin o w xbin ybin nxtot nytot
      let r ← writeWins xbin ybin nxtot nytot ws os1
      .ok (b ++ r)

/-- Encode the CCD list: per CCD the window count then the windows.  The
offset list for a CCD is only consulted when the CCD has windows, as in
the source, where `off[nc]` is indexed inside the window loop. -/
def writeCCDs (xbin ybin nxtot nytot : Int) :
    List (List Win) → List (List (Int × Int)) → Except UErr (List Nat)
  | [], _ => .ok []
  | c :: cs, offs => do
    let nb ← pkI32 .native (c.length : Int)
    let b ← writeWins xbin ybin nxtot nytot c (offs.headD [])
    let r ← writeCCDs xbin ybin nxtot nytot cs (offs.drop 1)
    .ok (nb ++ b ++ r)

/-- Full encode (`Ucm.write`): the bytes written to the file, always in
native byte order, with `iout = 0` and float32 pixels for every window. -/
def writeUcm (F : UcmF) : Except UErr (List Nat) := do
  let mb ← pkI32 .native MAGIC
  let lb ← pkI32 .native (F.head.length : Int)
  let hb ← writeHItems F.head
  let cb ← pkI32 .native (F.data.length : Int)
  let db ← writeCCDs F.xbin F.ybin F.nxtot F.nytot F.data F.off
  .ok (mb ++ lb ++ hb ++ cb ++ db)

/-- Number of CCDs (`Ucm.nccd`). -/
def nccd (F : UcmF) : Nat := F.data.length

/-- Structural equality (`Ucm.__eq__`): CCD count, binning and extent
fields, per-CCD window counts, per-window shapes and offsets.  The source
indexes `off[nc][nw]` without bounds checks (out of range raises there);
here out-of-range offset accesses read a default, and the theorems about
this function assume aligned frames. -/
def ucmEq (a b : UcmF) : Bool :=
  decide (a.data.length = b.data.length) &&
  decide (a.xbin = b.xbin) && decide (a.ybin = b.ybin) &&
  decide (a.nxtot = b.nxtot) && decide (a.nytot = b.nytot) &&
  (List.range a.data.length).all fun nc =>
    decide ((a.data.getD nc []).length = (b.data.getD nc []).length) &&
    (List.range (a.data.getD nc []).length).all fun nw =>
      decide (((a.data.getD nc []).getD nw ⟨0, 0, []⟩).nx
        = ((b.data.getD nc []).getD nw ⟨0, 0, []⟩).nx) &&
      decide (((a.data.getD nc []).getD nw ⟨0, 0, []⟩).ny
        = ((b.data.getD nc []).getD nw ⟨0, 0, []⟩).ny) &&
      decide ((a.off.getD nc []).getD nw (0, 0) = (b.off.getD nc []).getD nw (0, 0))

/-- Numeric value of a float32 bit pattern.  Patterns with exponent field
255 encode infinities and NaNs, which are outside the numeric claims about
this codec, and map to 0 here; the theorems using this function are scoped
to finite patterns where needed. -/
def f32val (p : Nat) : ℚ :=
  let sgn : ℚ := if p / 2^31 % 2 = 1 then -1 else 1
  let e : Nat := p / 2^23 % 256
  let m : Nat := p % 2^23
  if e = 255 then 0
  else if e = 0 then sgn * (m : ℚ) * ((2 : ℚ) ^ (149 : ℕ))⁻¹
  else sgn * ((2^23 + m : Nat) : ℚ) * (2 : ℚ) ^ ((e : ℤ) - 150)

/-- Finiteness of a float32 bit pattern (exponent field below 255). -/
def f32finite (p : Nat) : Bool := decide (p / 2^23 % 256 ≠ 255)

/-- Minimum over one window (`self.data[nccd][nw].min()`): a numpy
reduction, a ValueError on an empty array.  Pixel patterns are read
through their numeric values. -/
def winMin (w : Win) : Except UErr ℚ :=
  match w.pix with
  | [] => .error .emptyReduction
  | p :: ps => .ok (ps.foldl (fun a q => min a (f32val q)) (f32val p))

/-- Maximum over one window (`self.data[nccd][nw].max()`). -/
def winMax (w : Win) : Except UErr ℚ :=
  match w.pix with
  | [] => .error .emptyReduction
  | p :: ps => .ok (ps.foldl (fun a q => max a (f32val q)) (f32val p))

/-- Per-CCD minimum (`Ucm.min`): 0.0 for a CCD with no windows, else the
running `min` of the window minima; an invalid CCD index raises. -/
def ucmMin (F : UcmF) (nc : Nat) : Except UErr ℚ :=
  match F.data.get? nc with
  | none => .error .indexError
  | some [] => .ok 0
  | some (w :: ws) => do
    let m0 ← winMin w
    ws.foldlM (fun a w1 => do
      let m ← winMin w1
      .ok (min a m)) m0

/-- Per-CCD maximum (`Ucm.max`). -/
def ucmMax (F : UcmF) (nc : Nat) : Except UErr ℚ :=
  match F.data.get? nc with
  | none => .error .indexError
  | some [] => .ok 0
  | some (w :: ws) => do
    let m0 ← winMax w
    ws.foldlM (fun a w1 => do
      let m ← winMax w1
      .ok (max a m)) m0

/-- Raw contents of one wire window record (spec section 6): the eight
int32 fields, the `iout` selector, and the payload values (float32 bit
patterns for `iout = 0`, uint16 values for `iout = 1`). -/
structure WRec where
  llx : Int
  lly : Int
  nx : Nat
  ny : Nat
  xb : Int
  yb : Int
  nxt : Int
  nyt : Int
  iout : Int
  pix : List Nat
deriving DecidableEq

/-- Binning / extent fields of a window record. -/
def WRec.bins (r : WRec) : Bins := (r.xb, r.yb, r.nxt, r.nyt)

/-- The in-memory window `_rucm` builds from a record. -/
def WRec.win (r : WRec) : Win :=
  if r.iout = 1 then ⟨r.ny, r.nx, r.pix.map f32OfNat⟩ else ⟨r.ny, r.nx, r.pix⟩

/-- Offset pair of a record. -/
def WRec.off (r : WRec) : Int × Int := (r.llx, r.lly)

/-- Pack a signed int32 without a range check (for building test streams
whose fields are known to be in range). -/
def i32b (ord : ByteOrder) (v : Int) : List Nat := pkU ord 4 (ofI32 v)

/-- Serialize one window record per the wire layout of spec section 6.
Pixel payloads are packed in native order, which is what this codec both
writes (`tofile`) and reads (`fromfile`). -/
def wireWin (ord : ByteOrder) (r : WRec) : List Nat :=
  i32b ord r.llx ++ i32b ord r.lly ++ i32b ord (r.nx : Int) ++ i32b ord (r.ny : Int) ++
  i32b ord r.xb ++ i32b ord r.yb ++ i32b ord r.nxt ++ i32b ord r.nyt ++
  i32b ord r.iout ++
  (if r.iout = 1 then r.pix.map (pkU .native 2) else r.pix.map (pkU .native 4)).flatten

/-- Serialize one CCD: window count then window records. -/
def wireCCD (ord : ByteOrder) (c : List WRec) : List Nat :=
  i32b ord (c.length : Int) ++ (c.map (wireWin ord)).flatten

/-- Serialize a whole frame with an empty header: magic, header count 0,
CCD count, CCDs (spec section 6 layout). -/
def wireFrame (ord : ByteOrder) (recss : List (List WRec)) : List Nat :=
  i32b ord MAGIC ++ i32b ord 0 ++ i32b ord (recss.length : Int) ++
  (recss.map (wireCCD ord)).flatten

/-- Signed int32 range check. -/
def inI32 (v : Int) : Bool := decide (-(2^31) ≤ v) && decide (v < 2^31)

/-- Well-formed window record: all int32 fields in range, shape fields
consistent with the payload length, payload values in range for the
declared `iout`. -/
def wfWRec (r : WRec) : Bool :=
  inI32 r.llx && inI32 r.lly && decide (r.nx < 2^31) && decide (r.ny < 2^31) &&
  inI32 r.xb && inI32 r.yb && inI32 r.nxt && inI32 r.nyt &&
  decide (r.pix.length = r.nx * r.ny) &&
  (if r.iout = 1 then r.pix.all (fun u => decide (u < 2^16))
   else r.pix.all (fun u => decide (u < 2^32)))

/-- Well-formed header value for its tag: the shape the tag's branch packs
and the ranges its struct format accepts, with the tag supported. -/
def wfVal (t : Int) (v : HVal) : Bool :=
  (decide (t = ITYPE_DOUBLE) && match v with
    | .vdouble b => decide (b < 2^64) | _ => false) ||
  (decide (t = ITYPE_INT) && match v with
    | .vint n => inI32 n | _ => false) ||
  (decide (t = ITYPE_UINT) && match v with
    | .vuint n => decide (n < 2^32) | _ => false) ||
  (decide (t = ITYPE_FLOAT) && match v with
    | .vfloat b => decide (b < 2^32) | _ => false) ||
  (decide (t = ITYPE_STRING) && match v with
    | .vstring str => decide (str.length < 2^31) | _ => false) ||
  (decide (t = ITYPE_BOOL) && match v with
    | .vbool n => decide (n < 2^8) | _ => false) ||
  (decide (t = ITYPE_DIR) && match v with
    | .vnone => true | _ => false) ||
  (decide (t = ITYPE_TIME) && match v with
    | .vtime mjd hour => inI32 mjd && decide (hour < 2^64) | _ => false) ||
  (decide (t = ITYPE_DVECTOR) && match v with
    | .vdvector xs => decide (xs.length < 2^31) && xs.all (fun b => decide (b < 2^64))
    | _ => false) ||
  (decide (t = ITYPE_UCHAR) && match v with
    | .vuchar c => decide (c < 2^8) | _ => false) ||
  (decide (t = ITYPE_USINT) && match v with
    | .vusint n => decide (n < 2^16) | _ => false) ||
  (decide (t = ITYPE_IVECTOR) && match v with
    | .vivector xs => decide (xs.length < 2^31) && xs.all inI32 | _ => false) ||
  (decide (t = ITYPE_FVECTOR) && match v with
    | .vfvector xs => decide (xs.length < 2^31) && xs.all (fun b => decide (b < 2^32))
    | _ => false)

/-- Well-formed header entry: name length packable, value well formed. -/
def wfEntry (e : List Nat × HItem) : Bool :=
  decide (e.1.length < 2^31) && decide (e.2.comment.length < 2^31) &&
  wfVal e.2.itype e.2.value

/-- Well-formed window for writing: shape in int32 range, payload length
matching the shape, patterns within 32 bits. -/
def wfWin (w : Win) : Bool :=
  decide (w.nx < 2^31) && decide (w.ny < 2^31) &&
  decide (w.pix.length = w.ny * w.nx) && w.pix.all (fun p => decide (p < 2^32))

/-- Well-formed frame: valid header entries, aligned data / offset lists
with in-range offsets, in-range binning fields and counts. -/
def wfUcm (F : UcmF) : Bool :=
  F.head.all wfEntry && decide (F.head.length < 2^31) &&
  decide (F.data.length < 2^31) &&
  decide (F.off.length = F.data.length) &&
  (F.data.zip F.off).all (fun (c, os) =>
    decide (c.length < 2^31) && decide (c.length ≤ os.length) &&
    c.all wfWin && os.all (fun o => inI32 o.1 && inI32 o.2)) &&
  inI32 F.xbin && inI32 F.ybin && inI32 F.nxtot && inI32 F.nytot

/-- At least one window somewhere in the frame. -/
def hasWin (F : UcmF) : Bool := F.data.any (fun c => !c.isEmpty)

/-- Pixel patterns of a frame, per CCD and window. -/
def pixData (F : UcmF) : List (List (List Nat)) :=
  F.data.map (fun c => c.map Win.pix)

/-- Serialization of one header payload following the type table of spec
section 4.3, all multi-byte fields in the stream byte order.  This is the
spec-side description the encoder is compared against. -/
def specPayload (ord : ByteOrder) (itype : Int) (v : HVal) : Except UErr (List Nat) :=
  if itype = ITYPE_DOUBLE then
    match v with
    | .vdouble b => .ok (pkU ord 8 b)
    | _ => .error .packMismatch
  else if itype = ITYPE_CHAR then .error (.notEnabled itype)
  else if itype = ITYPE_INT then
    match v with
    | .vint n => pkI32 ord n
    | _ => .error .packMismatch
  else if itype = ITYPE_UINT then
    match v with
    | .vuint n => if n < 2^32 then .ok (pkU ord 4 n) else .error .packRange
    | _ => .error .packMismatch
  else if itype = ITYPE_LINT then .error (.notEnabled itype)
  else if itype = ITYPE_ULINT then .error (.notEnabled itype)
  else if itype = ITYPE_FLOAT then
    match v with
    | .vfloat b => .ok (pkU ord 4 b)
    | _ => .error .packMismatch
  else if itype = ITYPE_STRING then
    match v with
    | .vstring str => do
      let lb ← pkI32 ord (str.length : Int)
      .ok (lb ++ str)
    | _ => .error .packMismatch
  else if itype = ITYPE_BOOL then
    match v with
    | .vbool n => if n < 2^8 then .ok (pkU ord 1 n) else .error .packRange
    | _ => .error .packMismatch
  else if itype = ITYPE_DIR then .ok []
  else if itype = ITYPE_DATE then .error (.notEnabled itype)
  else if itype = ITYPE_TIME then
    match v with
    | .vtime mjd hour => do
      let mb ← pkI32 ord mjd
      .ok (mb ++ pkU ord 8 hour)
    | _ => .error .packMismatch
  else if itype = ITYPE_POSITION then .error (.notEnabled itype)
  else if itype = ITYPE_DVECTOR then
    match v with
    | .vdvector xs => do
      let lb ← pkI32 ord (xs.length : Int)
      .ok (lb ++ (xs.map (pkU ord 8)).flatten)
    | _ => .error .packMismatch
  else if itype = ITYPE_UCHAR then
    match v with
    | .vuchar c => if c < 2^8 then .ok (pkU ord 1 c) else .error .packRange
    | _ => .error .packMismatch
  else if itype = ITYPE_TELESCOPE then .error (.notEnabled itype)
  else if itype = ITYPE_USINT then
    match v with
    | .vusint n => if n < 2^16 then .ok (pkU ord 2 n) else .error .packRange
    | _ => .error .packMismatch
  else if itype = ITYPE_IVECTOR then
    match v with
    | .vivector xs => do
      let lb ← pkI32 ord (xs.length : Int)
      let elems ← xs.mapM (pkI32 ord)
      .ok (lb ++ elems.flatten)
    | _ => .error .packMismatch
  else if itype = ITYPE_FVECTOR then
    match v with
    | .vfvector xs => do
      let lb ← pkI32 ord (xs.length : Int)
      .ok (lb ++ (xs.map (pkU ord 4)).flatten)
    | _ => .error .packMismatch
  else .error (.unknownTypeWrite itype)

/-- Spec-side serialization of one header item (section 4.3 decode/encode
sequence): name, type tag, comment, payload. -/
def specItem (ord : ByteOrder) (name : List Nat) (it : HItem) :
    Except UErr (List Nat) := do
  let ln ← pkI32 ord (name.length : Int)
  let tb ← pkI32 ord it.itype
  let lc ← pkI32 ord (it.comment.length : Int)
  let vb ← specPayload ord it.itype it.value
  .ok (ln ++ name ++ tb ++ lc ++ it.comment ++ vb)

/-- Spec-side serialization of the ordered header item sequence. -/
def specItems (ord : ByteOrder) : List (List Nat × HItem) → Except UErr (List Nat)
  | [] => .ok []
  | (name, it) :: t => do
    let b ← specItem ord name it
    let r ← specItems ord t
    .ok (b ++ r)

/-- Spec-side serialization of one window record (section 6 layout with
section 4.5's `iout = 0` and float32 payload). -/
def specWin (ord : ByteOrder) (o : Int × Int) (w : Win)
    (xbin ybin nxtot nytot : Int) : Except UErr (List Nat) := do
  let f1 ← pkI32 ord o.1
  let f2 ← pkI32 ord o.2
  let f3 ← pkI32 ord (w.nx : Int)
  let f4 ← pkI32 ord (w.ny : Int)
  let f5 ← pkI32 ord xbin
  let f6 ← pkI32 ord ybin
  let f7 ← pkI32 ord nxtot
  let f8 ← pkI32 ord nytot
  let f9 ← pkI32 ord 0
  .ok (f1 ++ f2 ++ f3 ++ f4 ++ f5 ++ f6 ++ f7 ++ f8 ++ f9 ++
    (w.pix.map (pkU ord 4)).flatten)

/-- Spec-side serialization of one CCD's windows. -/
def specWins (ord : ByteOrder) (xbin ybin nxtot nytot : Int) :
    List Win → List (Int × Int) → Except UErr (List Nat)
  | [], _ => .ok []
  | w :: ws, os =>
    match os with
    | [] => .error .indexError
    | o :: os1 => do
      let b ← specWin ord o w xbin ybin nxtot nytot
      let r ← specWins ord xbin ybin nxtot nytot ws os1
      .ok (b ++ r)

/-- Spec-side serialization of the CCD sequence. -/
def specCCDs (ord : ByteOrder) (xbin ybin nxtot nytot : Int) :
    List (List Win) → List (List (Int × Int)) → Except UErr (List Nat)
  | [], _ => .ok []
  | c :: cs, offs => do
    let nb ← pkI32 ord (c.length : Int)
    let b ← specWins ord xbin ybin nxtot nytot c (offs.headD [])
    let r ← specCCDs ord xbin ybin nxtot nytot cs (offs.drop 1)
    .ok (nb ++ b ++ r)

/-- Spec-side serialization of a whole frame in a chosen byte order,
following the wire layout of spec section 6: magic, header item count,
header items, detector count, detectors. -/
def specWrite (ord : ByteOrder) (F : UcmF) : Except UErr (List Nat) := do
  let mb ← pkI32 ord MAGIC
  let lb ← pkI32 ord (F.head.length : Int)
  let hb ← specItems ord F.head
  let cb ← pkI32 ord (F.data.length : Int)
  let db ← specCCDs ord F.xbin F.ybin F.nxtot F.nytot F.data F.off
  .ok (mb ++ lb ++ hb ++ cb ++ db)

/-- Window record written for window `w` at offset `o` by the encoder. -/
def toRec (xb yb nxt nyt : Int) (w : Win) (o : Int × Int) : WRec :=
  ⟨o.1, o.2, w.nx, w.ny, xb, yb, nxt, nyt, 0, w.pix⟩

/-- Window record the encoder emits when re-encoding a decoded record:
`iout` forced to 0, payload the in-memory float32 patterns, binning fields
those of the last decoded window record `lb`. -/
def outRec (lb : Bins) (r : WRec) : WRec :=
  ⟨r.llx, r.lly, r.nx, r.ny, lb.1, lb.2.1, lb.2.2.1, lb.2.2.2, 0,
    if r.iout = 1 then r.pix.map f32OfNat else r.pix⟩

/-- Offset lists long enough for every window, as `__eq__` and `write`
require to run without an IndexError. -/
def offAligned (F : UcmF) : Bool :=
  decide (F.data.length ≤ F.off.length) &&
  (List.range F.data.length).all fun nc =>
    decide ((F.data.getD nc []).length ≤ (F.off.getD nc []).length)

/-- Structural equality as the spec states it (section 4.5): detector
count equal; for each detector, window count equal; for each window,
(ny, nx) shape equal and (llx, lly) offset equal; xbin, ybin, nxtot,
nytot equal.  Header contents and pixel values do not appear. -/
def structEqSpec (a b : UcmF) : Prop :=
  a.data.length = b.data.length ∧
  a.xbin = b.xbin ∧ a.ybin = b.ybin ∧ a.nxtot = b.nxtot ∧ a.nytot = b.nytot ∧
  ∀ nc, nc < a.data.length →
    (a.data.getD nc []).length = (b.data.getD nc []).length ∧
    ∀ nw, nw < (a.data.getD nc []).length →
      ((a.data.getD nc []).getD nw ⟨0, 0, []⟩).ny
        = ((b.data.getD nc []).getD nw ⟨0, 0, []⟩).ny ∧
      ((a.data.getD nc []).getD nw ⟨0, 0, []⟩).nx
        = ((b.data.getD nc []).getD nw ⟨0, 0, []⟩).nx ∧
      (a.off.getD nc []).getD nw (0, 0) = (b.off.getD nc []).getD nw (0, 0)

/-- Replace the header and map every pixel value of a frame, keeping all
shapes, offsets and binning fields. -/
def reskin (F : UcmF) (h : List (List Nat × HItem)) (f : Nat → Nat) : UcmF :=
  { F with
    head := h
    data := F.data.map (fun c => c.map (fun w => ⟨w.ny, w.nx, w.pix.map f⟩)) }

/-- All pixel patterns of one CCD in window order. -/
def ccdPix (c : List Win) : List Nat := (c.map Win.pix).flatten

theorem leBytes_length (w n : Nat) : (leBytes w n).length = w := by
  induction w generalizing n with
  | zero => rfl
  | succ w ih => simp [leBytes, ih]

theorem pkU_length (ord : ByteOrder) (w n : Nat) : (pkU ord w n).length = w := by
  cases ord <;> simp [pkU, leBytes_length]

theorem unU_native_cons (b : Nat) (l : List Nat) :
    unU .native (b :: l) = b + 256 * unU .native l := rfl

theorem unU_native_leBytes (w n : Nat) (h : n < 256^w) :
    unU .native (leBytes w n) = n := by
  induction w generalizing n with
  | zero =>
    simp [pow_zero] at h
    simp [leBytes, unU, h]
  | succ w ih =>
    have hd : n / 256 < 256^w := by
      rw [Nat.div_lt_iff_lt_mul (by norm_num)]
      calc n < 256^(w+1) := h
        _ = 256^w * 256 := by ring
    rw [leBytes, unU_native_cons, ih _ hd]
    omega

theorem unU_big_reverse (l : List Nat) : unU .big l.reverse = unU .native l := by
  show l.reverse.foldl (fun acc b => 256 * acc + b) 0 = _
  rw [List.foldl_reverse]
  unfold unU
  congr 1
  funext b acc
  omega

theorem unU_pkU (ord : ByteOrder) (w n : Nat) (h : n < 256^w) :
    unU ord (pkU ord w n) = n := by
  cases ord with
  | native => exact unU_native_leBytes w n h
  | big => rw [pkU, unU_big_reverse]; exact unU_native_leBytes w n h

theorem ofI32_lt (v : Int) : ofI32 v < 2^32 := by
  unfold ofI32
  omega

theorem toI32_ofI32 (v : Int) (h1 : -(2^31) ≤ v) (h2 : v < 2^31) :
    toI32 (ofI32 v) = v := by
  unfold toI32 ofI32
  split <;> omega

theorem rdBytes_append (a s : List Nat) :
    rdBytes a.length (a ++ s) = .ok (a, s) := by
  simp [rdBytes]

theorem ok_bind {α β : Type} (a : α) (f : α → Except UErr β) :
    (Except.ok a >>= f) = f a := rfl

theorem rdU_append (ord : ByteOrder) (w n : Nat) (s : List Nat) (h : n < 256^w) :
    rdU ord w (pkU ord w n ++ s) = .ok (n, s) := by
  have hb := rdBytes_append (pkU ord w n) s
  rw [pkU_length] at hb
  unfold rdU
  rw [hb, ok_bind]
  simp [unU_pkU ord w n h]

theorem rdI32_append (ord : ByteOrder) (v : Int) (s : List Nat)
    (h : inI32 v = true) : rdI32 ord (i32b ord v ++ s) = .ok (v, s) := by
  simp only [inI32, Bool.and_eq_true, decide_eq_true_eq] at h
  unfold rdI32 i32b
  rw [rdU_append ord 4 (ofI32 v) s (ofI32_lt v), ok_bind]
  simp [toI32_ofI32 v h.1 h.2]

theorem pkI32_i32b (ord : ByteOrder) (v : Int) (h : inI32 v = true) :
    pkI32 ord v = .ok (i32b ord v) := by
  simp only [inI32, Bool.and_eq_true, decide_eq_true_eq] at h
  unfold pkI32 i32b
  rw [if_pos ⟨h.1, h.2⟩]

theorem inI32_natCast (n : Nat) (h : n < 2^31) : inI32 (n : Int) = true := by
  simp only [inI32, Bool.and_eq_true, decide_eq_true_eq]
  omega

theorem rdUVec_append (ord : ByteOrder) (w : Nat) (xs : List Nat) (s : List Nat)
    (h : ∀ x ∈ xs, x < 256^w) :
    rdUVec ord w xs.length ((xs.map (pkU ord w)).flatten ++ s) = .ok (xs, s) := by
  induction xs with
  | nil => simp [rdUVec]
  | cons x t ih =>
    simp only [List.map_cons, List.flatten_cons, List.length_cons, List.append_assoc]
    have h1 := rdU_append ord w x ((List.map (pkU ord w) t).flatten ++ s) (h x (by simp))
    have h2 := ih (fun y hy => h y (by simp [hy]))
    simp [rdUVec, h1, h2, ok_bind]

theorem read_string_append (ord : ByteOrder) (k s : List Nat)
    (h : k.length < 2^31) :
    read_string ord (i32b ord (k.length : Int) ++ (k ++ s)) = .ok (k, s) := by
  unfold read_string
  rw [rdI32_append ord _ _ (inI32_natCast k.length h), ok_bind]
  have : ¬ ((k.length : Int) < 0) := by omega
  simp only [this, if_false, Int.toNat_natCast, rdBytes_append]

theorem write_string_ok (k : List Nat) (h : k.length < 2^31) :
    write_string k = .ok (i32b .native (k.length : Int) ++ k) := by
  unfold write_string
  rw [pkI32_i32b _ _ (inI32_natCast k.length h), ok_bind]

theorem mapM_pkI32 (ord : ByteOrder) (xs : List Int)
    (h : ∀ x ∈ xs, inI32 x = true) :
    xs.mapM (pkI32 ord) = .ok (xs.map (i32b ord)) := by
  induction xs with
  | nil => rfl
  | cons x t ih =>
    rw [List.mapM_cons, pkI32_i32b ord x (h x (by simp)), ok_bind,
      ih (fun y hy => h y (by simp [hy])), ok_bind]
    rfl

set_option maxHeartbeats 1000000 in
theorem hval_roundtrip (t : Int) (v : HVal) (hwf : wfVal t v = true) :
    ∃ bs, writeHVal t v = .ok bs ∧
      ∀ prev s, readHVal .native t prev (bs ++ s) = .ok (v, s) := by
  cases v with
  | vdouble b =>
    unfold wfVal at hwf
    simp only [Bool.and_false, Bool.false_and, Bool.or_false, Bool.false_or,
      Bool.and_true, Bool.and_eq_true, decide_eq_true_eq, List.all_eq_true] at hwf
    obtain ⟨ht, hb⟩ := hwf
    subst ht
    refine ⟨pkU .native 8 b, by simp [writeHVal], fun prev s => ?_⟩
    have hr := rdU_append .native 8 b s (by omega)
    simp [readHVal, hr, ok_bind]
  | vint n =>
    unfold wfVal at hwf
    simp only [Bool.and_false, Bool.false_and, Bool.or_false, Bool.false_or,
      Bool.and_true, Bool.and_eq_true, decide_eq_true_eq, List.all_eq_true] at hwf
    obtain ⟨ht, hn⟩ := hwf
    subst ht
    refine ⟨i32b .native n, ?_, fun prev s => ?_⟩
    · simp [writeHVal, pkI32_i32b .native n hn]
    · simp [readHVal, rdI32_append .native n s hn, ok_bind]
  | vuint n =>
    unfold wfVal at hwf
    simp only [Bool.and_false, Bool.false_and, Bool.or_false, Bool.false_or,
      Bool.and_true, Bool.and_eq_true, decide_eq_true_eq, List.all_eq_true] at hwf
    obtain ⟨ht, hn⟩ := hwf
    subst ht
    have hn2 : n < 4294967296 := by omega
    refine ⟨pkU .native 4 n, by simp [writeHVal, hn2], fun prev s => ?_⟩
    have hr := rdU_append .native 4 n s (by omega)
    simp [readHVal, hr, ok_bind]
  | vfloat b =>
    unfold wfVal at hwf
    simp only [Bool.and_false, Bool.false_and, Bool.or_false, Bool.false_or,
      Bool.and_true, Bool.and_eq_true, decide_eq_true_eq, List.all_eq_true] at hwf
    obtain ⟨ht, hb⟩ := hwf
    subst ht
    refine ⟨pkU .native 4 b, by simp [writeHVal], fun prev s => ?_⟩
    have hr := rdU_append .native 4 b s (by omega)
    simp [readHVal, hr, ok_bind]
  | vstring str =>
    unfold wfVal at hwf
    simp only [Bool.and_false, Bool.false_and, Bool.or_false, Bool.false_or,
      Bool.and_true, Bool.and_eq_true, decide_eq_true_eq, List.all_eq_true] at hwf
    obtain ⟨ht, hlen⟩ := hwf
    subst ht
    refine ⟨i32b .native (str.length : Int) ++ str, ?_, fun prev s => ?_⟩
    · simp [writeHVal, write_string_ok str hlen]
    · simp [readHVal, List.append_assoc, read_string_append .native str s hlen, ok_bind]
  | vbool n =>
    unfold wfVal at hwf
    simp only [Bool.and_false, Bool.false_and, Bool.or_false, Bool.false_or,
      Bool.and_true, Bool.and_eq_true, decide_eq_true_eq, List.all_eq_true] at hwf
    obtain ⟨ht, hn⟩ := hwf
    subst ht
    have hn2 : n < 256 := by omega
    refine ⟨pkU .native 1 n, by simp [writeHVal, hn2], fun prev s => ?_⟩
    have hr := rdU_append .native 1 n s (by omega)
    simp [readHVal, hr, ok_bind]
  | vnone =>
    unfold wfVal at hwf
    simp only [Bool.and_false, Bool.false_and, Bool.or_false, Bool.false_or,
      Bool.and_true, Bool.and_eq_true, decide_eq_true_eq, List.all_eq_true] at hwf
    subst hwf
    exact ⟨[], by simp [writeHVal], fun prev s => by simp [readHVal]⟩
  | vtime mjd hour =>
    unfold wfVal at hwf
    simp only [Bool.and_false, Bool.false_and, Bool.or_false, Bool.false_or,
      Bool.and_true, Bool.and_eq_true, decide_eq_true_eq, List.all_eq_true] at hwf
    obtain ⟨ht, hmjd, hh⟩ := hwf
    subst ht
    refine ⟨i32b .native mjd ++ pkU .native 8 hour, ?_, fun prev s => ?_⟩
    · simp [writeHVal, pkI32_i32b .native mjd hmjd, ok_bind]
    · have h1 := rdI32_append .native mjd (pkU .native 8 hour ++ s) hmjd
      have h2 := rdU_append .native 8 hour s (by omega)
      simp [readHVal, List.append_assoc, h1, h2, ok_bind]
  | vdvector xs =>
    unfold wfVal at hwf
    simp only [Bool.and_false, Bool.false_and, Bool.or_false, Bool.false_or,
      Bool.and_true, Bool.and_eq_true, decide_eq_true_eq, List.all_eq_true] at hwf
    obtain ⟨ht, hlen, hel⟩ := hwf
    subst ht
    refine ⟨i32b .native (xs.length : Int) ++ (xs.map (pkU .native 8)).flatten,
      ?_, fun prev s => ?_⟩
    · simp [writeHVal, pkI32_i32b .native _ (inI32_natCast xs.length hlen), ok_bind]
    · have h1 := rdI32_append .native (xs.length : Int)
        ((xs.map (pkU .native 8)).flatten ++ s) (inI32_natCast xs.length hlen)
      have h2 := rdUVec_append .native 8 xs s (fun y hy => by have := hel y hy; omega)
      have hneg : ¬ ((xs.length : Int) < 0) := by omega
      simp [readHVal, List.append_assoc, h1, h2, hneg, ok_bind]
  | vuchar c =>
    unfold wfVal at hwf
    simp only [Bool.and_false, Bool.false_and, Bool.or_false, Bool.false_or,
      Bool.and_true, Bool.and_eq_true, decide_eq_true_eq, List.all_eq_true] at hwf
    obtain ⟨ht, hc⟩ := hwf
    subst ht
    have hc2 : c < 256 := by omega
    refine ⟨pkU .native 1 c, by simp [writeHVal, hc2], fun prev s => ?_⟩
    have hr := rdU_append .native 1 c s (by omega)
    simp [readHVal, hr, ok_bind]
  | vusint n =>
    unfold wfVal at hwf
    simp only [Bool.and_false, Bool.false_and, Bool.or_false, Bool.false_or,
      Bool.and_true, Bool.and_eq_true, decide_eq_true_eq, List.all_eq_true] at hwf
    obtain ⟨ht, hn⟩ := hwf
    subst ht
    have hn2 : n < 65536 := by omega
    refine ⟨pkU .native 2 n, by simp [writeHVal, hn2], fun prev s => ?_⟩
    have hr := rdU_append .native 2 n s (by omega)
    simp [readHVal, hr, ok_bind]
  | vivector xs =>
    unfold wfVal at hwf
    simp only [Bool.and_false, Bool.false_and, Bool.or_false, Bool.false_or,
      Bool.and_true, Bool.and_eq_true, decide_eq_true_eq, List.all_eq_true] at hwf
    obtain ⟨ht, hlen, hel⟩ := hwf
    subst ht
    have hm := mapM_pkI32 .native xs hel
    have hm2 : List.mapM.loop (pkI32 ByteOrder.native) xs [] =
        Except.ok (List.map (i32b ByteOrder.native) xs) := hm
    refine ⟨i32b .native (xs.length : Int) ++ (xs.map (i32b .native)).flatten,
      ?_, fun prev s => ?_⟩
    · simp [writeHVal, pkI32_i32b .native _ (inI32_natCast xs.length hlen), hm2, ok_bind]
    · have hmm : xs.map (i32b .native) = (xs.map ofI32).map (pkU .native 4) := by
        rw [List.map_map]; exact rfl
      have h1 := rdI32_append .native (xs.length : Int)
        (((xs.map ofI32).map (pkU .native 4)).flatten ++ s) (inI32_natCast xs.length hlen)
      have h2 := rdUVec_append .native 4 (xs.map ofI32) s (fun y hy => by
        obtain ⟨x, hx, rfl⟩ := List.mem_map.1 hy
        have := ofI32_lt x
        omega)
      simp only [List.length_map] at h2
      simp only [List.map_map] at h1 h2
      have hval2 : List.map toI32 (List.map ofI32 xs) = xs := by
        rw [List.map_map]
        conv_rhs => rw [← List.map_id xs]
        refine List.map_congr_left (fun x hx => ?_)
        have hx2 := hel x hx
        simp only [inI32, Bool.and_eq_true, decide_eq_true_eq] at hx2
        exact toI32_ofI32 x hx2.1 hx2.2
      simp only [List.map_map] at hval2
      have hneg : ¬ ((xs.length : Int) < 0) := by omega
      simp [readHVal, List.append_assoc, hmm, h1, h2, hval2, hneg, ok_bind]
  | vfvector xs =>
    unfold wfVal at hwf
    simp only [Bool.and_false, Bool.false_and, Bool.or_false, Bool.false_or,
      Bool.and_true, Bool.and_eq_true, decide_eq_true_eq, List.all_eq_true] at hwf
    obtain ⟨ht, hlen, hel⟩ := hwf
    subst ht
    refine ⟨i32b .native (xs.length : Int) ++ (xs.map (pkU .native 4)).flatten,
      ?_, fun prev s => ?_⟩
    · simp [writeHVal, pkI32_i32b .native _ (inI32_natCast xs.length hlen), ok_bind]
    · have h1 := rdI32_append .native (xs.length : Int)
        ((xs.map (pkU .native 4)).flatten ++ s) (inI32_natCast xs.length hlen)
      have h2 := rdUVec_append .native 4 xs s (fun y hy => by have := hel y hy; omega)
      have hneg : ¬ ((xs.length : Int) < 0) := by omega
      simp [readHVal, List.append_assoc, h1, h2, hneg, ok_bind]

theorem wfVal_inI32 (t : Int) (v : HVal) (h : wfVal t v = true) : inI32 t = true := by
  unfold wfVal at h
  simp only [Bool.or_eq_true, Bool.and_eq_true, decide_eq_true_eq, or_assoc] at h
  rcases h with h|h|h|h|h|h|h|h|h|h|h|h|h <;>
    (obtain ⟨ht, -⟩ := h; subst ht; decide)

set_option maxHeartbeats 1000000 in
theorem hitems_roundtrip (items : List (List Nat × HItem))
    (hwf : items.all wfEntry = true) :
    ∃ B, writeHItems items = .ok B ∧
      ∀ prev acc s, ∃ acc1,
        readHItems .native items.length prev acc (B ++ s) = .ok (acc1, s) := by
  induction items with
  | nil => exact ⟨[], rfl, fun prev acc s => ⟨acc, by simp [readHItems]⟩⟩
  | cons hd t ih =>
    obtain ⟨name, it⟩ := hd
    simp only [List.all_cons, Bool.and_eq_true] at hwf
    obtain ⟨hhd, htl⟩ := hwf
    simp only [wfEntry, Bool.and_eq_true, decide_eq_true_eq, and_assoc] at hhd
    obtain ⟨hn, hcm, hv⟩ := hhd
    obtain ⟨vb, hvw, hvr⟩ := hval_roundtrip it.itype it.value hv
    obtain ⟨B1, hBw, hBr⟩ := ih htl
    have hw := write_string_ok name hn
    have hwc := write_string_ok it.comment hcm
    have hti := wfVal_inI32 _ _ hv
    have ht32 := pkI32_i32b .native it.itype hti
    refine ⟨(i32b .native (name.length : Int) ++ name) ++ i32b .native it.itype ++
      ((i32b .native (it.comment.length : Int) ++ it.comment) ++ (vb ++ B1)), ?_, ?_⟩
    · simp [writeHItems, writeHItem, hw, hwc, hvw, ht32, hBw, ok_bind]
    · intro prev acc s
      obtain ⟨acc1, hrec⟩ :=
        hBr (some it.value) (odInsert acc name ⟨it.itype, it.comment, it.value⟩) s
      refine ⟨acc1, ?_⟩
      have hr1 := read_string_append .native name
        (i32b .native it.itype ++ (i32b .native (it.comment.length : Int) ++
          (it.comment ++ (vb ++ (B1 ++ s))))) hn
      have hr2 := rdI32_append .native it.itype
        (i32b .native (it.comment.length : Int) ++ (it.comment ++ (vb ++ (B1 ++ s)))) hti
      have hr3 := read_string_append .native it.comment (vb ++ (B1 ++ s)) hcm
      have hr4 := hvr prev (B1 ++ s)
      simp [readHItems, List.append_assoc, hr1, hr2, hr3, hr4, hrec, ok_bind]

theorem writeWin_ok (o : Int × Int) (w : Win) (xb yb nxt nyt : Int)
    (hw : wfWin w = true) (ho1 : inI32 o.1 = true) (ho2 : inI32 o.2 = true)
    (hxb : inI32 xb = true) (hyb : inI32 yb = true)
    (hnxt : inI32 nxt = true) (hnyt : inI32 nyt = true) :
    writeWin o w xb yb nxt nyt = .ok (wireWin .native (toRec xb yb nxt nyt w o)) := by
  simp only [wfWin, Bool.and_eq_true, decide_eq_true_eq, and_assoc] at hw
  obtain ⟨hnx, hny, -, -⟩ := hw
  simp [writeWin, wireWin, toRec, ok_bind,
    pkI32_i32b .native o.1 ho1, pkI32_i32b .native o.2 ho2,
    pkI32_i32b .native (w.nx : Int) (inI32_natCast w.nx hnx),
    pkI32_i32b .native (w.ny : Int) (inI32_natCast w.ny hny),
    pkI32_i32b .native xb hxb, pkI32_i32b .native yb hyb,
    pkI32_i32b .native nxt hnxt, pkI32_i32b .native nyt hnyt,
    pkI32_i32b .native 0 (by decide)]

set_option maxHeartbeats 1000000 in
theorem readWin_wire (ord : ByteOrder) (r : WRec) (s : List Nat)
    (hwf : wfWRec r = true) (hi : r.iout = 0 ∨ r.iout = 1) :
    readWin ord (wireWin ord r ++ s) = .ok (r.off, r.win, r.bins, s) := by
  simp only [wfWRec, Bool.and_eq_true, decide_eq_true_eq, and_assoc] at hwf
  obtain ⟨hllx, hlly, hnx, hny, hxb, hyb, hnxt, hnyt, hlen, hpix⟩ := hwf
  have hnn : ¬ (((r.nx : Int) < 0) ∨ ((r.ny : Int) < 0)) := by omega
  rcases hi with hi | hi
  · have hpix0 : ∀ x ∈ r.pix, x < 256^4 := by
      rw [hi, if_neg (by decide : ¬ ((0 : Int) = 1))] at hpix
      simp only [List.all_eq_true, decide_eq_true_eq] at hpix
      intro x hx
      have := hpix x hx
      omega
    have h2 := rdUVec_append .native 4 r.pix s hpix0
    rw [hlen] at h2
    simp [readWin, wireWin, toRec, WRec.off, WRec.win, WRec.bins, hi,
      List.append_assoc, ok_bind, hnn,
      rdI32_append ord r.llx _ hllx, rdI32_append ord r.lly _ hlly,
      rdI32_append ord (r.nx : Int) _ (inI32_natCast r.nx hnx),
      rdI32_append ord (r.ny : Int) _ (inI32_natCast r.ny hny),
      rdI32_append ord r.xb _ hxb, rdI32_append ord r.yb _ hyb,
      rdI32_append ord r.nxt _ hnxt, rdI32_append ord r.nyt _ hnyt,
      rdI32_append ord (0 : Int) _ (by decide), h2]
  · have hpix1 : ∀ x ∈ r.pix, x < 256^2 := by
      rw [hi, if_pos (rfl : (1 : Int) = 1)] at hpix
      simp only [List.all_eq_true, decide_eq_true_eq] at hpix
      intro x hx
      have := hpix x hx
      omega
    have h2 := rdUVec_append .native 2 r.pix s hpix1
    rw [hlen] at h2
    simp [readWin, wireWin, toRec, WRec.off, WRec.win, WRec.bins, hi,
      List.append_assoc, ok_bind, hnn,
      rdI32_append ord r.llx _ hllx, rdI32_append ord r.lly _ hlly,
      rdI32_append ord (r.nx : Int) _ (inI32_natCast r.nx hnx),
      rdI32_append ord (r.ny : Int) _ (inI32_natCast r.ny hny),
      rdI32_append ord r.xb _ hxb, rdI32_append ord r.yb _ hyb,
      rdI32_append ord r.nxt _ hnxt, rdI32_append ord r.nyt _ hnyt,
      rdI32_append ord (1 : Int) _ (by decide), h2]

theorem readWins_wire (ord : ByteOrder) (c : List WRec) (b0 : Option Bins)
    (s : List Nat)
    (h : ∀ r ∈ c, wfWRec r = true ∧ (r.iout = 0 ∨ r.iout = 1)) :
    readWins ord c.length b0 ((c.map (wireWin ord)).flatten ++ s) =
      .ok (c.map WRec.win, c.map WRec.off,
        c.foldl (fun _ r => some r.bins) b0, s) := by
  induction c generalizing b0 with
  | nil => simp [readWins]
  | cons r t ih =>
    have h1 := readWin_wire ord r ((t.map (wireWin ord)).flatten ++ s)
      (h r (by simp)).1 (h r (by simp)).2
    have h2 := ih (some r.bins) (fun y hy => h y (by simp [hy]))
    simp [readWins, List.append_assoc, h1, h2, ok_bind]

theorem readCCDs_wire (ord : ByteOrder) (recss : List (List WRec))
    (b0 : Option Bins) (s : List Nat)
    (h : ∀ cc ∈ recss, ∀ r ∈ cc, wfWRec r = true ∧ (r.iout = 0 ∨ r.iout = 1))
    (hc : ∀ cc ∈ recss, cc.length < 2^31) :
    readCCDs ord recss.length b0 ((recss.map (wireCCD ord)).flatten ++ s) =
      .ok (recss.map (List.map WRec.win), recss.map (List.map WRec.off),
        recss.foldl (fun b cc => cc.foldl (fun _ r => some r.bins) b) b0, s) := by
  induction recss generalizing b0 with
  | nil => simp [readCCDs]
  | cons cc t ih =>
    have hcnt := rdI32_append ord (cc.length : Int)
      ((cc.map (wireWin ord)).flatten ++ ((t.map (wireCCD ord)).flatten ++ s))
      (inI32_natCast cc.length (hc cc (by simp)))
    have h1 := readWins_wire ord cc b0 ((t.map (wireCCD ord)).flatten ++ s)
      (fun r hr => h cc (by simp) r hr)
    have h2 := ih (cc.foldl (fun _ r => some r.bins) b0)
      (fun y hy => h y (by simp [hy])) (fun y hy => hc y (by simp [hy]))
    simp [readCCDs, wireCCD, List.append_assoc, hcnt, h1, h2, ok_bind]

theorem foldl_lastBins (l : List WRec) (b0 : Option Bins) :
    l.foldl (fun _ r => some r.bins) b0 =
      match l.getLast? with
      | none => b0
      | some r => some r.bins := by
  induction l generalizing b0 with
  | nil => rfl
  | cons r t ih =>
    rw [List.foldl_cons, ih (some r.bins)]
    cases t with
    | nil => rfl
    | cons r2 t2 =>
      cases hgl : (r2 :: t2).getLast? with
      | none => exact absurd hgl (by simp)
      | some x => rw [List.getLast?_cons_cons, hgl]

theorem foldl_bins_flatten (recss : List (List WRec)) (b0 : Option Bins) :
    recss.foldl (fun b cc => cc.foldl (fun _ r => some r.bins) b) b0 =
      recss.flatten.foldl (fun _ r => some r.bins) b0 := by
  induction recss generalizing b0 with
  | nil => rfl
  | cons cc t ih => simp [List.foldl_append, ih]

theorem check_ucm_wire (ord : ByteOrder) (s : List Nat) :
    check_ucm (i32b ord MAGIC ++ s) = .ok (ord, s) := by
  have hb := rdBytes_append (i32b ord MAGIC) s
  rw [show (i32b ord MAGIC).length = 4 from by
    rw [i32b, pkU_length]] at hb
  unfold check_ucm
  rw [hb, ok_bind]
  dsimp only
  cases ord with
  | native =>
    rw [if_pos (by decide : toI32 (unU .native (i32b .native MAGIC)) = MAGIC)]
  | big =>
    rw [if_neg (by decide : ¬ (toI32 (unU .native (i32b .big MAGIC)) = MAGIC)),
      if_pos (by decide : toI32 (unU .big (i32b .big MAGIC)) = MAGIC)]

theorem zipWith_left {α β : Type} (c : List α) (os : List β)
    (h : c.length ≤ os.length) : List.zipWith (fun w _ => w) c os = c := by
  induction c generalizing os with
  | nil => rfl
  | cons w ws ih =>
    cases os with
    | nil => simp at h
    | cons o os1 =>
      simp only [List.zipWith_cons_cons, List.cons.injEq, true_and]
      exact ih os1 (by simpa using h)

theorem recss_win (xb yb nxt nyt : Int) (c : List Win) (os : List (Int × Int))
    (h : c.length ≤ os.length) :
    (List.zipWith (toRec xb yb nxt nyt) c os).map WRec.win = c := by
  induction c generalizing os with
  | nil => rfl
  | cons w ws ih =>
    cases os with
    | nil => simp at h
    | cons o os1 =>
      simp only [List.zipWith_cons_cons, List.map_cons, List.cons.injEq]
      exact ⟨by simp [WRec.win, toRec], ih os1 (by simpa using h)⟩

theorem recss_off (xb yb nxt nyt : Int) (c : List Win) (os : List (Int × Int)) :
    (List.zipWith (toRec xb yb nxt nyt) c os).map WRec.off = os.take c.length := by
  induction c generalizing os with
  | nil => simp
  | cons w ws ih =>
    cases os with
    | nil => simp
    | cons o os1 => simp [WRec.off, toRec, ih]

theorem mem_zipWith_toRec (xb yb nxt nyt : Int) (c : List Win)
    (os : List (Int × Int)) (r : WRec)
    (h : r ∈ List.zipWith (toRec xb yb nxt nyt) c os) :
    ∃ w o, w ∈ c ∧ o ∈ os ∧ r = toRec xb yb nxt nyt w o := by
  induction c generalizing os with
  | nil => simp at h
  | cons w ws ih =>
    cases os with
    | nil => simp at h
    | cons o os1 =>
      simp only [List.zipWith_cons_cons, List.mem_cons] at h
      rcases h with h | h
      · exact ⟨w, o, by simp, by simp, h⟩
      · obtain ⟨w1, o1, hw1, ho1, he⟩ := ih os1 h
        exact ⟨w1, o1, by simp [hw1], by simp [ho1], he⟩

theorem wfWRec_toRec (xb yb nxt nyt : Int) (w : Win) (o : Int × Int)
    (hw : wfWin w = true) (ho1 : inI32 o.1 = true) (ho2 : inI32 o.2 = true)
    (hxb : inI32 xb = true) (hyb : inI32 yb = true)
    (hnxt : inI32 nxt = true) (hnyt : inI32 nyt = true) :
    wfWRec (toRec xb yb nxt nyt w o) = true ∧
      (toRec xb yb nxt nyt w o).iout = 0 := by
  simp only [wfWin, Bool.and_eq_true, decide_eq_true_eq, and_assoc] at hw
  obtain ⟨hnx, hny, hlen, hpix⟩ := hw
  refine ⟨?_, rfl⟩
  simp only [wfWRec, toRec, Bool.and_eq_true, decide_eq_true_eq, and_assoc]
  refine ⟨ho1, ho2, hnx, hny, hxb, hyb, hnxt, hnyt,
    by rw [hlen]; exact Nat.mul_comm _ _, ?_⟩
  rw [if_neg (by decide : ¬ ((0 : Int) = 1))]
  exact hpix

theorem writeWins_ok (xb yb nxt nyt : Int) (c : List Win) (os : List (Int × Int))
    (hlen : c.length ≤ os.length) (hw : c.all wfWin = true)
    (ho : os.all (fun o => inI32 o.1 && inI32 o.2) = true)
    (hxb : inI32 xb = true) (hyb : inI32 yb = true)
    (hnxt : inI32 nxt = true) (hnyt : inI32 nyt = true) :
    writeWins xb yb nxt nyt c os =
      .ok ((List.zipWith (fun w o => wireWin .native (toRec xb yb nxt nyt w o))
        c os).flatten) := by
  induction c generalizing os with
  | nil => simp [writeWins]
  | cons w ws ih =>
    cases os with
    | nil => simp at hlen
    | cons o os1 =>
      simp only [List.all_cons, Bool.and_eq_true] at hw ho
      have h1 := writeWin_ok o w xb yb nxt nyt hw.1
        (by simp [ho.1.1]) (by simp [ho.1.2]) hxb hyb hnxt hnyt
      have h2 := ih os1 (by simpa using hlen) hw.2 ho.2
      simp [writeWins, h1, h2, ok_bind]

theorem writeCCDs_ok (xb yb nxt nyt : Int) (data : List (List Win))
    (off : List (List (Int × Int))) (hlen : off.length = data.length)
    (hall : (data.zip off).all (fun e =>
      decide (e.1.length < 2^31) && decide (e.1.length ≤ e.2.length) &&
      e.1.all wfWin && e.2.all (fun o => inI32 o.1 && inI32 o.2)) = true)
    (hxb : inI32 xb = true) (hyb : inI32 yb = true)
    (hnxt : inI32 nxt = true) (hnyt : inI32 nyt = true) :
    writeCCDs xb yb nxt nyt data off =
      .ok ((List.zipWith (fun c os =>
        wireCCD .native (List.zipWith (toRec xb yb nxt nyt) c os))
        data off).flatten) := by
  induction data generalizing off with
  | nil => simp [writeCCDs]
  | cons c cs ih =>
    cases off with
    | nil => simp at hlen
    | cons os offs =>
      simp only [List.zip_cons_cons, List.all_cons, Bool.and_eq_true,
        decide_eq_true_eq, and_assoc] at hall
      obtain ⟨hc31, hcle, hcw, hco, htl⟩ := hall
      have h1 := writeWins_ok xb yb nxt nyt c os hcle hcw hco hxb hyb hnxt hnyt
      have h2 := ih offs (by simpa using hlen) htl
      have hcnt := pkI32_i32b .native (c.length : Int) (inI32_natCast c.length hc31)
      have hwire : wireCCD .native (List.zipWith (toRec xb yb nxt nyt) c os) =
          i32b .native (c.length : Int) ++
            ((List.zipWith (fun w o => wireWin .native (toRec xb yb nxt nyt w o))
              c os).flatten) := by
        rw [wireCCD, List.map_zipWith, List.length_zipWith,
          Nat.min_eq_left hcle]
      simp [writeCCDs, h1, h2, hcnt, hwire, ok_bind]

theorem rucm_wireFrame_ok (ord : ByteOrder) (recss : List (List WRec))
    (lastR : WRec)
    (h : ∀ cc ∈ recss, ∀ r ∈ cc, wfWRec r = true ∧ (r.iout = 0 ∨ r.iout = 1))
    (hc : ∀ cc ∈ recss, cc.length < 2^31)
    (hn : recss.length < 2^31)
    (hlast : recss.flatten.getLast? = some lastR) :
    rucm (wireFrame ord recss) =
      .ok ⟨[], recss.map (List.map WRec.win), recss.map (List.map WRec.off),
        lastR.xb, lastR.yb, lastR.nxt, lastR.nyt⟩ := by
  have h1 := check_ucm_wire ord
    (i32b ord 0 ++ (i32b ord (recss.length : Int) ++ (recss.map (wireCCD ord)).flatten))
  have h2 := rdI32_append ord 0
    (i32b ord (recss.length : Int) ++ (recss.map (wireCCD ord)).flatten) (by decide)
  have h3 := rdI32_append ord (recss.length : Int)
    ((recss.map (wireCCD ord)).flatten) (inI32_natCast _ hn)
  have h4 := readCCDs_wire ord recss none [] h hc
  rw [List.append_nil, foldl_bins_flatten, foldl_lastBins, hlast] at h4
  simp [rucm, wireFrame, List.append_assoc, h1, h2, h3, h4, readHItems,
    WRec.bins, ok_bind]

theorem f32OfNat_facts (n : Nat) (hp : 1 ≤ n) (h : n < 2^24) :
    n.log2 ≤ 23 ∧ 2^23 ≤ n * 2^(23 - n.log2) ∧ n * 2^(23 - n.log2) < 2^24 := by
  have hk1 : 2^n.log2 ≤ n := Nat.log2_self_le (by omega)
  have hk2 : n < 2^(n.log2 + 1) := Nat.lt_log2_self
  have hk23 : n.log2 ≤ 23 := by
    by_contra hgt
    push_neg at hgt
    have : 2^24 ≤ 2^n.log2 := Nat.pow_le_pow_right (by norm_num) (by omega)
    omega
  have hsplit : 2^n.log2 * 2^(23 - n.log2) = 2^23 := by
    rw [← pow_add]
    congr 1
    omega
  have hsplit2 : 2^(n.log2 + 1) * 2^(23 - n.log2) = 2^24 := by
    rw [← pow_add]
    congr 1
    omega
  refine ⟨hk23, ?_, ?_⟩
  · rw [← hsplit]
    exact Nat.mul_le_mul_right _ hk1
  · rw [← hsplit2]
    exact Nat.mul_lt_mul_of_lt_of_le hk2 (Nat.le_refl _) (Nat.pos_pow_of_pos _ (by norm_num))

theorem f32OfNat_lt (n : Nat) (h : n < 2^24) : f32OfNat n < 2^31 := by
  rcases Nat.eq_zero_or_pos n with hz | hp
  · subst hz
    simp [f32OfNat]
  · obtain ⟨hk23, hM1, hM2⟩ := f32OfNat_facts n hp h
    rw [f32OfNat, if_neg (by omega)]
    have h150 : (n.log2 + 127) * 2^23 ≤ 150 * 2^23 :=
      Nat.mul_le_mul_right _ (by omega)
    omega

theorem f32val_f32OfNat (n : Nat) (h : n < 2^24) : f32val (f32OfNat n) = (n : ℚ) := by
  rcases Nat.eq_zero_or_pos n with hz | hp
  · subst hz
    simp [f32OfNat, f32val]
  · obtain ⟨hk23, hM1, hM2⟩ := f32OfNat_facts n hp h
    have hpat : f32OfNat n =
        (n * 2^(23 - n.log2) - 2^23) + (n.log2 + 127) * 2^23 := by
      rw [f32OfNat, if_neg (by omega)]
      omega
    have hrlt : n * 2^(23 - n.log2) - 2^23 < 2^23 := by omega
    have hdiv : f32OfNat n / 2^23 = n.log2 + 127 := by
      rw [hpat, Nat.add_mul_div_right _ _ (by norm_num : 0 < 2^23),
        Nat.div_eq_of_lt hrlt, Nat.zero_add]
    have hmod : f32OfNat n % 2^23 = n * 2^(23 - n.log2) - 2^23 := by
      rw [hpat, Nat.add_mul_mod_self_right, Nat.mod_eq_of_lt hrlt]
    have hlt31 : f32OfNat n < 2^31 := f32OfNat_lt n h
    have hsdiv : f32OfNat n / 2^31 = 0 := Nat.div_eq_of_lt hlt31
    have hediv : f32OfNat n / 2^23 % 256 = n.log2 + 127 := by
      rw [hdiv]
      exact Nat.mod_eq_of_lt (by omega)
    rw [f32val]
    simp only [hsdiv, hediv, hmod, Nat.zero_mod]
    rw [if_neg (by omega : ¬ (0 = 1)), if_neg (by omega : ¬ (n.log2 + 127 = 255)),
      if_neg (by omega : ¬ (n.log2 + 127 = 0))]
    have hM : 2^23 + (n * 2^(23 - n.log2) - 2^23) = n * 2^(23 - n.log2) := by
      omega
    rw [hM, one_mul]
    push_cast
    rw [← zpow_natCast (2 : ℚ) (23 - n.log2), mul_assoc,
      ← zpow_add₀ (by norm_num : (2 : ℚ) ≠ 0)]
    have he : ((23 - n.log2 : ℕ) : ℤ) + ((n.log2 + 127 : ℕ) : ℤ) - 150 = 0 := by
      have h1 : ((23 - n.log2 : ℕ) : ℤ) = 23 - (n.log2 : ℤ) := by
        push_cast [Nat.cast_sub hk23]
        ring
      have h2 : ((n.log2 + 127 : ℕ) : ℤ) = (n.log2 : ℤ) + 127 := by push_cast; ring
      rw [h1, h2]
      ring
    rw [show ((23 - n.log2 : ℕ) : ℤ) + (((n.log2 : ℤ) + 127) - 150) = 0 from by
      have h1 : ((23 - n.log2 : ℕ) : ℤ) = 23 - (n.log2 : ℤ) := by
        push_cast [Nat.cast_sub hk23]
        ring
      rw [h1]; ring]
    simp

theorem mem_zipWith_pair {α β γ : Type} (f : α → β → γ) (l : List α)
    (l2 : List β) (x : γ) (h : x ∈ List.zipWith f l l2) :
    ∃ p ∈ l.zip l2, x = f p.1 p.2 := by
  induction l generalizing l2 with
  | nil => simp at h
  | cons a t ih =>
    cases l2 with
    | nil => simp at h
    | cons b t2 =>
      simp only [List.zipWith_cons_cons, List.mem_cons] at h
      rcases h with h | h
      · exact ⟨(a, b), by simp, h⟩
      · obtain ⟨p, hp, he⟩ := ih t2 h
        exact ⟨p, by simp [List.mem_cons]; right; exact hp, he⟩

theorem getLast?_of_ne_nil {α : Type} (l : List α) (h : l ≠ []) :
    ∃ a, l.getLast? = some a ∧ a ∈ l := by
  cases hgl : l.getLast? with
  | none => exact absurd (List.getLast?_eq_none_iff.1 hgl) h
  | some a =>
    refine ⟨a, rfl, ?_⟩
    obtain ⟨hne, rfl⟩ := List.mem_getLast?_eq_getLast (show a ∈ l.getLast? from hgl)
    exact List.getLast_mem hne

theorem decode_data_eq (xb yb nxt nyt : Int) (data : List (List Win))
    (off : List (List (Int × Int))) (hol : off.length = data.length)
    (hle : ∀ e ∈ data.zip off, e.1.length ≤ e.2.length) :
    (List.zipWith (fun c os => List.zipWith (toRec xb yb nxt nyt) c os)
      data off).map (List.map WRec.win) = data := by
  induction data generalizing off with
  | nil => rfl
  | cons c cs ih =>
    cases off with
    | nil => simp at hol
    | cons os offs =>
      simp only [List.zipWith_cons_cons, List.map_cons, List.cons.injEq]
      refine ⟨recss_win xb yb nxt nyt c os (hle (c, os) (by simp)), ?_⟩
      exact ih offs (by simpa using hol) (fun e he => hle e (by simp [he]))

theorem decode_off_eq (xb yb nxt nyt : Int) (data : List (List Win))
    (off : List (List (Int × Int))) :
    (List.zipWith (fun c os => List.zipWith (toRec xb yb nxt nyt) c os)
      data off).map (List.map WRec.off) =
    List.zipWith (fun (c : List Win) os => os.take c.length) data off := by
  induction data generalizing off with
  | nil => rfl
  | cons c cs ih =>
    cases off with
    | nil => rfl
    | cons os offs =>
      simp only [List.zipWith_cons_cons, List.map_cons, List.cons.injEq]
      exact ⟨recss_off xb yb nxt nyt c os, ih offs⟩

theorem hasWin_flatten_ne (xb yb nxt nyt : Int) (data : List (List Win))
    (off : List (List (Int × Int))) (hol : off.length = data.length)
    (hle : ∀ e ∈ data.zip off, e.1.length ≤ e.2.length)
    (hex : ∃ c ∈ data, c ≠ []) :
    (List.zipWith (fun c os => List.zipWith (toRec xb yb nxt nyt) c os)
      data off).flatten ≠ [] := by
  induction data generalizing off with
  | nil => simp at hex
  | cons c cs ih =>
    cases off with
    | nil => simp at hol
    | cons os offs =>
      simp only [List.zipWith_cons_cons, List.flatten_cons, ne_eq]
      rcases hex with ⟨c1, hc1, hne⟩
      rcases List.mem_cons.1 hc1 with rfl | hmem
      · have hleh := hle (c1, os) (by simp)
        cases c1 with
        | nil => exact absurd rfl hne
        | cons w ws =>
          cases os with
          | nil => simp at hleh
          | cons o os1 => simp
      · have htail := ih offs (by simpa using hol)
          (fun e he => hle e (by simp [he])) ⟨c1, hmem, hne⟩
        intro hcon
        exact htail (List.append_eq_nil.1 hcon).2

set_option maxHeartbeats 2000000 in
theorem rucm_writeUcm (F : UcmF) (hwf : wfUcm F = true) (hwin : hasWin F = true) :
    ∃ s hd1, writeUcm F = .ok s ∧
      rucm s = .ok ⟨hd1, F.data,
        List.zipWith (fun (c : List Win) os => os.take c.length) F.data F.off,
        F.xbin, F.ybin, F.nxtot, F.nytot⟩ := by
  simp only [wfUcm, Bool.and_eq_true, decide_eq_true_eq, and_assoc] at hwf
  obtain ⟨hhead, hhl, hdl, hol, hzip, hxb, hyb, hnxt, hnyt⟩ := hwf
  obtain ⟨HB, hHB, hHr⟩ := hitems_roundtrip F.head hhead
  have hDB := writeCCDs_ok F.xbin F.ybin F.nxtot F.nytot F.data F.off hol hzip
    hxb hyb hnxt hnyt
  have hzipP := List.all_eq_true.1 hzip
  have hzipP2 : ∀ e ∈ F.data.zip F.off, e.1.length < 2^31 ∧
      e.1.length ≤ e.2.length ∧ e.1.all wfWin = true ∧
      e.2.all (fun o => inI32 o.1 && inI32 o.2) = true := by
    intro e he
    have := hzipP e he
    simp only [Bool.and_eq_true, decide_eq_true_eq, and_assoc] at this
    exact this
  set recss := List.zipWith
    (fun c os => List.zipWith (toRec F.xbin F.ybin F.nxtot F.nytot) c os)
    F.data F.off with hrecss
  have DBeq : (List.zipWith (fun c os =>
      wireCCD .native (List.zipWith (toRec F.xbin F.ybin F.nxtot F.nytot) c os))
      F.data F.off).flatten = (recss.map (wireCCD .native)).flatten := by
    rw [hrecss, List.map_zipWith]
  rw [DBeq] at hDB
  have hlenr : recss.length = F.data.length := by
    rw [hrecss, List.length_zipWith, hol, Nat.min_self]
  have hwfr : ∀ cc ∈ recss, ∀ r ∈ cc,
      wfWRec r = true ∧ (r.iout = 0 ∨ r.iout = 1) := by
    intro cc hcc r hr
    obtain ⟨p, hp, rfl⟩ := mem_zipWith_pair _ _ _ cc hcc
    obtain ⟨-, -, hwinw, hoffw⟩ := hzipP2 p hp
    obtain ⟨q, hq, rfl⟩ := mem_zipWith_pair _ _ _ r hr
    obtain ⟨hq1, hq2⟩ := List.of_mem_zip hq
    have hw := List.all_eq_true.1 hwinw q.1 hq1
    have hoq := List.all_eq_true.1 hoffw q.2 hq2
    simp only [Bool.and_eq_true] at hoq
    obtain ⟨ha, hb⟩ := wfWRec_toRec F.xbin F.ybin F.nxtot F.nytot q.1 q.2
      hw hoq.1 hoq.2 hxb hyb hnxt hnyt
    exact ⟨ha, Or.inl hb⟩
  have hcnt : ∀ cc ∈ recss, cc.length < 2^31 := by
    intro cc hcc
    obtain ⟨p, hp, rfl⟩ := mem_zipWith_pair _ _ _ cc hcc
    obtain ⟨h31, -, -, -⟩ := hzipP2 p hp
    rw [List.length_zipWith]
    omega
  have hflat_ne : recss.flatten ≠ [] := by
    have hany := List.any_eq_true.1 hwin
    obtain ⟨c, hcmem, hcb⟩ := hany
    have hcne : c ≠ [] := by
      cases c with
      | nil => simp at hcb
      | cons a t => simp
    rw [hrecss]
    exact hasWin_flatten_ne F.xbin F.ybin F.nxtot F.nytot F.data F.off hol
      (fun e he => (hzipP2 e he).2.1) ⟨c, hcmem, hcne⟩
  have hbins_all : ∀ r ∈ recss.flatten,
      WRec.bins r = (F.xbin, F.ybin, F.nxtot, F.nytot) := by
    intro r hrf
    obtain ⟨cc, hcc, hr⟩ := List.mem_flatten.1 hrf
    obtain ⟨p, hp, rfl⟩ := mem_zipWith_pair _ _ _ cc hcc
    obtain ⟨q, hq, rfl⟩ := mem_zipWith_pair _ _ _ r hr
    rfl
  obtain ⟨lastR, hlast, hlastmem⟩ := getLast?_of_ne_nil recss.flatten hflat_ne
  have hlastbins := hbins_all lastR hlastmem
  obtain ⟨acc1, hread⟩ := hHr none []
    (i32b .native (F.data.length : Int) ++ (recss.map (wireCCD .native)).flatten)
  refine ⟨i32b .native MAGIC ++ (i32b .native (F.head.length : Int) ++
    (HB ++ (i32b .native (F.data.length : Int) ++
      (recss.map (wireCCD .native)).flatten))), acc1, ?_, ?_⟩
  · simp [writeUcm, pkI32_i32b .native MAGIC (by decide),
      pkI32_i32b .native (F.head.length : Int) (inI32_natCast _ hhl),
      pkI32_i32b .native (F.data.length : Int) (inI32_natCast _ hdl),
      hHB, hDB, ok_bind, List.append_assoc]
  · have h1 := check_ucm_wire .native (i32b .native (F.head.length : Int) ++
      (HB ++ (i32b .native (F.data.length : Int) ++
        (recss.map (wireCCD .native)).flatten)))
    have h2 := rdI32_append .native (F.head.length : Int)
      (HB ++ (i32b .native (F.data.length : Int) ++
        (recss.map (wireCCD .native)).flatten)) (inI32_natCast _ hhl)
    have h4 := rdI32_append .native (F.data.length : Int)
      ((recss.map (wireCCD .native)).flatten) (inI32_natCast _ hdl)
    have h5 := readCCDs_wire .native recss none [] hwfr hcnt
    rw [List.append_nil, foldl_bins_flatten, foldl_lastBins, hlast] at h5
    dsimp only at h5
    rw [hrecss, decode_data_eq F.xbin F.ybin F.nxtot F.nytot F.data F.off hol
        (fun e he => (hzipP2 e he).2.1),
      decode_off_eq F.xbin F.ybin F.nxtot F.nytot F.data F.off] at h5
    rw [← hrecss] at h5
    rw [hlenr] at h5
    rw [hlastbins] at h5
    simp [rucm, h1, h2, hread, h4, h5, ok_bind, List.append_assoc,
      Int.toNat_natCast]

theorem getD_take {α : Type} (l : List α) (m i : Nat) (h : i < m) (d : α) :
    (l.take m).getD i d = l.getD i d := by
  induction l generalizing m i with
  | nil => simp
  | cons a t ih =>
    cases m with
    | zero => omega
    | succ m1 =>
      cases i with
      | zero => simp
      | succ i1 =>
        simp only [List.take_succ_cons, List.getD_cons_succ]
        exact ih m1 i1 (by omega)

theorem getD_zip_take (data : List (List Win)) (off : List (List (Int × Int)))
    (nc : Nat) (h : nc < data.length) (hnc2 : nc < off.length) :
    (List.zipWith (fun (c : List Win) os => os.take c.length) data off).getD nc []
      = (off.getD nc []).take ((data.getD nc []).length) := by
  induction data generalizing off nc with
  | nil => simp at h
  | cons c cs ih =>
    cases off with
    | nil => simp at hnc2
    | cons os offs =>
      cases nc with
      | zero => simp
      | succ k =>
        simp only [List.zipWith_cons_cons, List.getD_cons_succ]
        exact ih offs k (by simpa using h) (by simpa using hnc2)

/-- C1 counterexample: a valid frame with one detector and zero windows
encodes, but decoding the encoded stream fails (the loop-local binning
variables of `_rucm` are never bound), so `decode(encode(F)) == F` does
not hold for every valid in-memory frame. -/
theorem c1_roundtrip_counterexample :
    writeUcm ⟨[], [[]], [[]], 1, 1, 1, 1⟩ =
      .ok [49, 185, 213, 2, 0, 0, 0, 0, 1, 0, 0, 0, 0, 0, 0, 0] ∧
    rucm [49, 185, 213, 2, 0, 0, 0, 0, 1, 0, 0, 0, 0, 0, 0, 0] =
      .error .unboundBins := by
  exact ⟨by decide, by decide⟩

/-- C1 (amended): for every well-formed frame that contains at least one
window, decoding the encoded stream succeeds and yields a frame that is
structurally equal to the original (`Ucm.__eq__`) and carries exactly the
original pixel values in every window. -/
theorem c1_roundtrip_amended (F : UcmF) (hwf : wfUcm F = true)
    (hwin : hasWin F = true) :
    ∃ s F1, writeUcm F = .ok s ∧ rucm s = .ok F1 ∧
      ucmEq F F1 = true ∧ pixData F1 = pixData F := by
  have hol : F.off.length = F.data.length := by
    have h2 := hwf
    simp only [wfUcm, Bool.and_eq_true, decide_eq_true_eq, and_assoc] at h2
    exact h2.2.2.2.1
  obtain ⟨s, hd1, hws, hrs⟩ := rucm_writeUcm F hwf hwin
  refine ⟨s, _, hws, hrs, ?_, rfl⟩
  simp only [ucmEq, Bool.and_eq_true, decide_eq_true_eq, and_assoc,
    List.all_eq_true, List.mem_range]
  refine ⟨trivial, trivial, trivial, trivial, trivial,
    fun nc hnc => ⟨trivial, fun nw hnw => ⟨trivial, trivial, ?_⟩⟩⟩
  rw [getD_zip_take F.data F.off nc hnc (by omega), getD_take _ _ _ hnw]

/-- Witness for C1 (amended) at a concrete one-window frame with a double
header item. -/
theorem c1_roundtrip_amended_witness :
    wfUcm ⟨[([97], ⟨0, [99], .vdouble 5⟩)], [[⟨1, 2, [7, 9]⟩]], [[(3, 4)]],
      2, 2, 100, 100⟩ = true ∧
    hasWin ⟨[([97], ⟨0, [99], .vdouble 5⟩)], [[⟨1, 2, [7, 9]⟩]], [[(3, 4)]],
      2, 2, 100, 100⟩ = true ∧
    ∃ s F1,
      writeUcm ⟨[([97], ⟨0, [99], .vdouble 5⟩)], [[⟨1, 2, [7, 9]⟩]], [[(3, 4)]],
        2, 2, 100, 100⟩ = .ok s ∧
      rucm s = .ok F1 ∧
      ucmEq ⟨[([97], ⟨0, [99], .vdouble 5⟩)], [[⟨1, 2, [7, 9]⟩]], [[(3, 4)]],
        2, 2, 100, 100⟩ F1 = true ∧
      pixData F1 = pixData ⟨[([97], ⟨0, [99], .vdouble 5⟩)], [[⟨1, 2, [7, 9]⟩]],
        [[(3, 4)]], 2, 2, 100, 100⟩ :=
  ⟨by decide, by decide, c1_roundtrip_amended _ (by decide) (by decide)⟩

/-- C3: for a stream with at least 4 bytes, endianness detection has
exactly three outcomes: native order when the native-order int32 equals
the magic, otherwise swapped order when the swapped-order int32 equals the
magic, otherwise the magic failure. -/
theorem c3_magic_trichotomy (s : List Nat) (h : 4 ≤ s.length) :
    (toI32 (unU .native (s.take 4)) = MAGIC ∧
      check_ucm s = .ok (.native, s.drop 4)) ∨
    (toI32 (unU .native (s.take 4)) ≠ MAGIC ∧
      toI32 (unU .big (s.take 4)) = MAGIC ∧
      check_ucm s = .ok (.big, s.drop 4)) ∨
    (toI32 (unU .native (s.take 4)) ≠ MAGIC ∧
      toI32 (unU .big (s.take 4)) ≠ MAGIC ∧
      check_ucm s = .error .magic) := by
  have hb : rdBytes 4 s = .ok (s.take 4, s.drop 4) := by
    rw [rdBytes, if_pos h]
  have hck : check_ucm s =
      (if toI32 (unU .native (s.take 4)) = MAGIC then .ok (.native, s.drop 4)
       else if toI32 (unU .big (s.take 4)) = MAGIC then .ok (.big, s.drop 4)
       else .error .magic) := by
    unfold check_ucm
    rw [hb, ok_bind]
  by_cases h1 : toI32 (unU .native (s.take 4)) = MAGIC
  · exact Or.inl ⟨h1, by rw [hck, if_pos h1]⟩
  · by_cases h2 : toI32 (unU .big (s.take 4)) = MAGIC
    · exact Or.inr (Or.inl ⟨h1, h2, by rw [hck, if_neg h1, if_pos h2]⟩)
    · exact Or.inr (Or.inr ⟨h1, h2, by rw [hck, if_neg h1, if_neg h2]⟩)

/-- Witness for C3 at a concrete native-order stream. -/
theorem c3_magic_trichotomy_witness :
    4 ≤ ([49, 185, 213, 2, 9] : List Nat).length ∧
    ((toI32 (unU .native (([49, 185, 213, 2, 9] : List Nat).take 4)) = MAGIC ∧
      check_ucm [49, 185, 213, 2, 9] = .ok (.native, [9])) ∨
    (toI32 (unU .native (([49, 185, 213, 2, 9] : List Nat).take 4)) ≠ MAGIC ∧
      toI32 (unU .big (([49, 185, 213, 2, 9] : List Nat).take 4)) = MAGIC ∧
      check_ucm [49, 185, 213, 2, 9] = .ok (.big, [9])) ∨
    (toI32 (unU .native (([49, 185, 213, 2, 9] : List Nat).take 4)) ≠ MAGIC ∧
      toI32 (unU .big (([49, 185, 213, 2, 9] : List Nat).take 4)) ≠ MAGIC ∧
      check_ucm [49, 185, 213, 2, 9] = .error .magic)) :=
  ⟨by decide, c3_magic_trichotomy [49, 185, 213, 2, 9] (by decide)⟩

/-- C7: every reserved type tag (char, lint, ulint, date, position,
telescope) fails in the decoder for any byte-order, previous value and
stream, fails in the encoder for any value, and the not-enabled error
differs from the format errors (magic, bad iout, truncation) and from the
unknown-tag write error. -/
theorem c7_reserved_tags (t : Int)
    (h : t ∈ ([ITYPE_CHAR, ITYPE_LINT, ITYPE_ULINT, ITYPE_DATE,
      ITYPE_POSITION, ITYPE_TELESCOPE] : List Int)) :
    (∀ ord prev s, readHVal ord t prev s = .error (.notEnabled t)) ∧
    (∀ v, writeHVal t v = .error (.notEnabled t)) ∧
    (∀ i : Int, UErr.notEnabled t ≠ .magic ∧ UErr.notEnabled t ≠ .ioutBad i ∧
      UErr.notEnabled t ≠ .eof ∧ UErr.notEnabled t ≠ .unknownTypeWrite t) := by
  simp only [List.mem_cons, List.not_mem_nil, or_false, ITYPE_CHAR, ITYPE_LINT,
    ITYPE_ULINT, ITYPE_DATE, ITYPE_POSITION, ITYPE_TELESCOPE] at h
  rcases h with rfl | rfl | rfl | rfl | rfl | rfl <;>
    exact ⟨fun ord prev s => by simp [readHVal],
      fun v => by simp [writeHVal],
      fun i => by refine ⟨by simp, by simp, by simp, by simp⟩⟩

/-- Witness for C7 at the char tag. -/
theorem c7_reserved_tags_witness :
    (1 : Int) ∈ ([ITYPE_CHAR, ITYPE_LINT, ITYPE_ULINT, ITYPE_DATE,
      ITYPE_POSITION, ITYPE_TELESCOPE] : List Int) ∧
    readHVal .native 1 none [] = .error (.notEnabled 1) ∧
    writeHVal 1 (.vint 0) = .error (.notEnabled 1) ∧
    UErr.notEnabled 1 ≠ .magic :=
  ⟨by decide, (c7_reserved_tags 1 (by decide)).1 .native none [],
    (c7_reserved_tags 1 (by decide)).2.1 (.vint 0),
    ((c7_reserved_tags 1 (by decide)).2.2 0).1⟩

/-- C2: the decoder does not fail fatally on an undefined type tag.  A
stream whose second header item carries tag 19 decodes successfully: the
item is stored with the previous item's value (the stale loop-local
`value` of `_rucm`), and parsing continues through the data section.
When the unknown tag is on the first item, the loop-local is unbound and
decode fails with an UnboundLocalError, not a format error. -/
theorem c2_unknown_tag_not_fatal :
    rucm (i32b .native MAGIC ++ i32b .native 2 ++
      (i32b .native 1 ++ [97] ++ i32b .native 0 ++ i32b .native 0 ++
        pkU .native 8 0) ++
      (i32b .native 1 ++ [98] ++ i32b .native 19 ++ i32b .native 0) ++
      i32b .native 1 ++ i32b .native 1 ++
      (i32b .native 10 ++ i32b .native 20 ++ i32b .native 1 ++ i32b .native 1 ++
       i32b .native 2 ++ i32b .native 3 ++ i32b .native 100 ++ i32b .native 200 ++
       i32b .native 0 ++ pkU .native 4 5)) =
    .ok ⟨[([97], ⟨0, [], .vdouble 0⟩), ([98], ⟨19, [], .vdouble 0⟩)],
      [[⟨1, 1, [5]⟩]], [[(10, 20)]], 2, 3, 100, 200⟩ ∧
    rucm (i32b .native MAGIC ++ i32b .native 1 ++
      (i32b .native 1 ++ [98] ++ i32b .native 19 ++ i32b .native 0)) =
    .error .unboundLocal := by
  exact ⟨by decide, by decide⟩

/-- C5: for every decoded stream with at least one window record, the
frame-level xbin, ybin, nxtot, nytot equal the values stored in the last
window record read, whatever any earlier record stored. -/
theorem c5_last_window_bins (recss : List (List WRec)) (lastR : WRec)
    (h : ∀ cc ∈ recss, ∀ r ∈ cc, wfWRec r = true ∧ (r.iout = 0 ∨ r.iout = 1))
    (hc : ∀ cc ∈ recss, cc.length < 2^31) (hn : recss.length < 2^31)
    (hlast : recss.flatten.getLast? = some lastR) :
    ∃ F, rucm (wireFrame .native recss) = .ok F ∧
      F.xbin = lastR.xb ∧ F.ybin = lastR.yb ∧
      F.nxtot = lastR.nxt ∧ F.nytot = lastR.nyt :=
  ⟨_, rucm_wireFrame_ok .native recss lastR h hc hn hlast, rfl, rfl, rfl, rfl⟩

/-- Witness for C5: two window records that disagree on the binning and
extent fields; the decoded frame carries the second (last) record's
values. -/
theorem c5_last_window_bins_witness :
    (∀ cc ∈ [[(⟨1, 2, 1, 1, 9, 9, 50, 50, 0, [7]⟩ : WRec),
        ⟨3, 4, 1, 1, 2, 3, 100, 200, 0, [8]⟩]],
      ∀ r ∈ cc, wfWRec r = true ∧ (r.iout = 0 ∨ r.iout = 1)) ∧
    (∃ F, rucm (wireFrame .native [[⟨1, 2, 1, 1, 9, 9, 50, 50, 0, [7]⟩,
        ⟨3, 4, 1, 1, 2, 3, 100, 200, 0, [8]⟩]]) = .ok F ∧
      F.xbin = 2 ∧ F.ybin = 3 ∧ F.nxtot = 100 ∧ F.nytot = 200) :=
  ⟨by decide,
    c5_last_window_bins [[⟨1, 2, 1, 1, 9, 9, 50, 50, 0, [7]⟩,
      ⟨3, 4, 1, 1, 2, 3, 100, 200, 0, [8]⟩]]
      ⟨3, 4, 1, 1, 2, 3, 100, 200, 0, [8]⟩
      (by decide) (by decide) (by decide) (by decide)⟩

set_option maxHeartbeats 1000000 in
/-- C6: pixel payload dispatch on `iout` for a well-formed window record:
`iout = 0` reads nx*ny float32 patterns as stored; `iout = 1` reads nx*ny
uint16 values, each widened to a float32 whose numeric value equals the
unsigned original; any other `iout` fails with the unrecognized pixel
encoding error. -/
theorem c6_iout_dispatch (ord : ByteOrder) (r : WRec) (s : List Nat)
    (hwf : wfWRec r = true) (hio : inI32 r.iout = true) :
    (r.iout = 0 → readWin ord (wireWin ord r ++ s) =
      .ok ((r.llx, r.lly), ⟨r.ny, r.nx, r.pix⟩, r.bins, s)) ∧
    (r.iout = 1 → readWin ord (wireWin ord r ++ s) =
      .ok ((r.llx, r.lly), ⟨r.ny, r.nx, r.pix.map f32OfNat⟩, r.bins, s) ∧
      ∀ u ∈ r.pix, f32val (f32OfNat u) = (u : ℚ)) ∧
    (r.iout ≠ 0 → r.iout ≠ 1 →
      readWin ord (wireWin ord r ++ s) = .error (.ioutBad r.iout)) := by
  refine ⟨fun hi => ?_, fun hi => ⟨?_, ?_⟩, fun hi0 hi1 => ?_⟩
  · have := readWin_wire ord r s hwf (Or.inl hi)
    rwa [WRec.win, if_neg (by omega), WRec.off] at this
  · have := readWin_wire ord r s hwf (Or.inr ‹r.iout = 1›)
    rwa [WRec.win, if_pos ‹r.iout = 1›, WRec.off] at this
  · intro u hu
    simp only [wfWRec, Bool.and_eq_true, decide_eq_true_eq, and_assoc] at hwf
    obtain ⟨-, -, -, -, -, -, -, -, -, hpix⟩ := hwf
    rw [if_pos ‹r.iout = 1›, List.all_eq_true] at hpix
    have := hpix u hu
    simp only [decide_eq_true_eq] at this
    exact f32val_f32OfNat u (by omega)
  · simp only [wfWRec, Bool.and_eq_true, decide_eq_true_eq, and_assoc] at hwf
    obtain ⟨hllx, hlly, hnx, hny, hxb, hyb, hnxt, hnyt, -, -⟩ := hwf
    simp [readWin, wireWin, if_neg hi1, List.append_assoc, ok_bind, hi0, hi1,
      rdI32_append ord r.llx _ hllx, rdI32_append ord r.lly _ hlly,
      rdI32_append ord (r.nx : Int) _ (inI32_natCast r.nx hnx),
      rdI32_append ord (r.ny : Int) _ (inI32_natCast r.ny hny),
      rdI32_append ord r.xb _ hxb, rdI32_append ord r.yb _ hyb,
      rdI32_append ord r.nxt _ hnxt, rdI32_append ord r.nyt _ hnyt,
      rdI32_append ord r.iout _ hio]

/-- Witness for C6: a uint16 window record holding 0 and 65535 decodes to
exactly-equal float32 values, and a record with `iout = 7` fails. -/
theorem c6_iout_dispatch_witness :
    wfWRec ⟨1, 2, 2, 1, 1, 1, 10, 10, 1, [0, 65535]⟩ = true ∧
    (readWin .native (wireWin .native ⟨1, 2, 2, 1, 1, 1, 10, 10, 1, [0, 65535]⟩ ++ []) =
      .ok ((1, 2), ⟨1, 2, [0, 65535].map f32OfNat⟩, (1, 1, 10, 10), []) ∧
      ∀ u ∈ ([0, 65535] : List Nat), f32val (f32OfNat u) = (u : ℚ)) ∧
    wfWRec ⟨1, 2, 1, 1, 1, 1, 10, 10, 7, [5]⟩ = true ∧
    readWin .native (wireWin .native ⟨1, 2, 1, 1, 1, 1, 10, 10, 7, [5]⟩ ++ []) =
      .error (.ioutBad 7) :=
  ⟨by decide,
    (c6_iout_dispatch .native ⟨1, 2, 2, 1, 1, 1, 10, 10, 1, [0, 65535]⟩ []
      (by decide) (by decide)).2.1 rfl,
    by decide,
    (c6_iout_dispatch .native ⟨1, 2, 1, 1, 1, 1, 10, 10, 7, [5]⟩ []
      (by decide) (by decide)).2.2 (by decide) (by decide)⟩

theorem getD_map_list {α β : Type} (f : α → β) (l : List (List α)) (i : Nat) :
    (l.map (fun c => c.map f)).getD i [] = (l.getD i []).map f := by
  induction l generalizing i with
  | nil => simp
  | cons c t ih =>
    cases i with
    | zero => simp
    | succ k =>
      simp only [List.map_cons, List.getD_cons_succ]
      exact ih k

theorem getD_map_win (g : Win → Win) (hg : g ⟨0, 0, []⟩ = ⟨0, 0, []⟩)
    (l : List Win) (i : Nat) :
    (l.map g).getD i ⟨0, 0, []⟩ = g (l.getD i ⟨0, 0, []⟩) := by
  induction l generalizing i with
  | nil => simpa using hg.symm
  | cons c t ih =>
    cases i with
    | zero => simp
    | succ k =>
      simp only [List.map_cons, List.getD_cons_succ]
      exact ih k

/-- C4: structural equality holds exactly when the detector counts, the
per-detector window counts, the per-window shapes and offsets, and the
xbin/ybin/nxtot/nytot fields agree; replacing the header and remapping
every pixel value on both sides never changes the result. -/
theorem c4_structural_equality (a b : UcmF)
    (ha : offAligned a = true) (hb : offAligned b = true) :
    (ucmEq a b = true ↔ structEqSpec a b) ∧
    (∀ h1 h2 f g, ucmEq (reskin a h1 f) (reskin b h2 g) = ucmEq a b) := by
  constructor
  · simp only [ucmEq, Bool.and_eq_true, decide_eq_true_eq, and_assoc,
      List.all_eq_true, List.mem_range, structEqSpec]
    constructor
    · rintro ⟨h1, h2, h3, h4, h5, h6⟩
      refine ⟨h1, h2, h3, h4, h5, fun nc hnc => ⟨(h6 nc hnc).1, fun nw hnw => ?_⟩⟩
      obtain ⟨e1, e2, e3⟩ := (h6 nc hnc).2 nw hnw
      exact ⟨e2, e1, e3⟩
    · rintro ⟨h1, h2, h3, h4, h5, h6⟩
      refine ⟨h1, h2, h3, h4, h5, fun nc hnc => ⟨(h6 nc hnc).1, fun nw hnw => ?_⟩⟩
      obtain ⟨e1, e2, e3⟩ := (h6 nc hnc).2 nw hnw
      exact ⟨e2, e1, e3⟩
  · intro h1 h2 f g
    simp only [ucmEq, reskin, List.length_map,
      getD_map_list (fun (w : Win) => (⟨w.ny, w.nx, w.pix.map f⟩ : Win)),
      getD_map_list (fun (w : Win) => (⟨w.ny, w.nx, w.pix.map g⟩ : Win)),
      getD_map_win (fun (w : Win) => (⟨w.ny, w.nx, w.pix.map f⟩ : Win)) rfl,
      getD_map_win (fun (w : Win) => (⟨w.ny, w.nx, w.pix.map g⟩ : Win)) rfl]

/-- Witness for C4 at two concrete frames that agree on layout but differ
in header and pixel contents. -/
theorem c4_structural_equality_witness :
    offAligned ⟨[([97], ⟨0, [], .vdouble 1⟩)], [[⟨1, 1, [5]⟩]], [[(1, 2)]],
      1, 1, 9, 9⟩ = true ∧
    offAligned ⟨[], [[⟨1, 1, [6]⟩]], [[(1, 2)]], 1, 1, 9, 9⟩ = true ∧
    (ucmEq ⟨[([97], ⟨0, [], .vdouble 1⟩)], [[⟨1, 1, [5]⟩]], [[(1, 2)]],
        1, 1, 9, 9⟩ ⟨[], [[⟨1, 1, [6]⟩]], [[(1, 2)]], 1, 1, 9, 9⟩ = true ↔
      structEqSpec ⟨[([97], ⟨0, [], .vdouble 1⟩)], [[⟨1, 1, [5]⟩]], [[(1, 2)]],
        1, 1, 9, 9⟩ ⟨[], [[⟨1, 1, [6]⟩]], [[(1, 2)]], 1, 1, 9, 9⟩) ∧
    ucmEq (reskin ⟨[([97], ⟨0, [], .vdouble 1⟩)], [[⟨1, 1, [5]⟩]], [[(1, 2)]],
        1, 1, 9, 9⟩ [] (fun p => p + 1))
      (reskin ⟨[], [[⟨1, 1, [6]⟩]], [[(1, 2)]], 1, 1, 9, 9⟩
        [([98], ⟨0, [], .vdouble 2⟩)] (fun p => 3)) =
    ucmEq ⟨[([97], ⟨0, [], .vdouble 1⟩)], [[⟨1, 1, [5]⟩]], [[(1, 2)]],
      1, 1, 9, 9⟩ ⟨[], [[⟨1, 1, [6]⟩]], [[(1, 2)]], 1, 1, 9, 9⟩ :=
  ⟨by decide, by decide,
    (c4_structural_equality _ _ (by decide) (by decide)).1,
    (c4_structural_equality _ _ (by decide) (by decide)).2 [] _ _ _⟩

theorem foldl_min_spec (xs : List Nat) (a : ℚ) :
    xs.foldl (fun acc q => min acc (f32val q)) a ≤ a ∧
    (∀ p ∈ xs, xs.foldl (fun acc q => min acc (f32val q)) a ≤ f32val p) ∧
    (xs.foldl (fun acc q => min acc (f32val q)) a = a ∨
      xs.foldl (fun acc q => min acc (f32val q)) a ∈ xs.map f32val) := by
  induction xs generalizing a with
  | nil => simp
  | cons x t ih =>
    obtain ⟨ih1, ih2, ih3⟩ := ih (min a (f32val x))
    simp only [List.foldl_cons, List.map_cons, List.mem_cons]
    refine ⟨le_trans ih1 (min_le_left _ _), fun p hp => ?_, ?_⟩
    · rcases hp with rfl | hm
      · exact le_trans ih1 (min_le_right _ _)
      · exact ih2 p hm
    · rcases ih3 with he | hm
      · rcases min_cases a (f32val x) with ⟨he2, -⟩ | ⟨he2, -⟩
        · exact Or.inl (he.trans he2)
        · exact Or.inr (Or.inl (he.trans he2))
      · exact Or.inr (Or.inr hm)

theorem foldl_max_spec (xs : List Nat) (a : ℚ) :
    a ≤ xs.foldl (fun acc q => max acc (f32val q)) a ∧
    (∀ p ∈ xs, f32val p ≤ xs.foldl (fun acc q => max acc (f32val q)) a) ∧
    (xs.foldl (fun acc q => max acc (f32val q)) a = a ∨
      xs.foldl (fun acc q => max acc (f32val q)) a ∈ xs.map f32val) := by
  induction xs generalizing a with
  | nil => simp
  | cons x t ih =>
    obtain ⟨ih1, ih2, ih3⟩ := ih (max a (f32val x))
    simp only [List.foldl_cons, List.map_cons, List.mem_cons]
    refine ⟨le_trans (le_max_left _ _) ih1, fun p hp => ?_, ?_⟩
    · rcases hp with rfl | hm
      · exact le_trans (le_max_right _ _) ih1
      · exact ih2 p hm
    · rcases ih3 with he | hm
      · rcases max_cases a (f32val x) with ⟨he2, -⟩ | ⟨he2, -⟩
        · exact Or.inl (he.trans he2)
        · exact Or.inr (Or.inl (he.trans he2))
      · exact Or.inr (Or.inr hm)

theorem winMin_spec (w : Win) (h : w.pix ≠ []) :
    ∃ m, winMin w = .ok m ∧ (∀ p ∈ w.pix, m ≤ f32val p) ∧
      m ∈ w.pix.map f32val := by
  cases hp : w.pix with
  | nil => exact absurd hp h
  | cons x t =>
    obtain ⟨h1, h2, h3⟩ := foldl_min_spec t (f32val x)
    refine ⟨t.foldl (fun acc q => min acc (f32val q)) (f32val x),
      by unfold winMin; rw [hp], fun p hpm => ?_, ?_⟩
    · rcases List.mem_cons.1 hpm with rfl | hm
      · exact h1
      · exact h2 p hm
    · rw [List.map_cons]
      rcases h3 with he | hm
      · rw [he]
        exact List.mem_cons_self _ _
      · exact List.mem_cons_of_mem _ hm

theorem winMax_spec (w : Win) (h : w.pix ≠ []) :
    ∃ m, winMax w = .ok m ∧ (∀ p ∈ w.pix, f32val p ≤ m) ∧
      m ∈ w.pix.map f32val := by
  cases hp : w.pix with
  | nil => exact absurd hp h
  | cons x t =>
    obtain ⟨h1, h2, h3⟩ := foldl_max_spec t (f32val x)
    refine ⟨t.foldl (fun acc q => max acc (f32val q)) (f32val x),
      by unfold winMax; rw [hp], fun p hpm => ?_, ?_⟩
    · rcases List.mem_cons.1 hpm with rfl | hm
      · exact h1
      · exact h2 p hm
    · rw [List.map_cons]
      rcases h3 with he | hm
      · rw [he]
        exact List.mem_cons_self _ _
      · exact List.mem_cons_of_mem _ hm

theorem ccdfold_min_spec (ws : List Win) (hne : ∀ w ∈ ws, w.pix ≠ []) (a : ℚ) :
    ∃ m, ws.foldlM (fun acc w1 => do
        let x ← winMin w1
        Except.ok (min acc x)) a = .ok m ∧ m ≤ a ∧
      (∀ p ∈ ccdPix ws, m ≤ f32val p) ∧
      (m = a ∨ m ∈ (ccdPix ws).map f32val) := by
  induction ws generalizing a with
  | nil => exact ⟨a, rfl, le_refl a, by simp [ccdPix], Or.inl rfl⟩
  | cons w t ih =>
    obtain ⟨mw, hmw, hlew, hmemw⟩ := winMin_spec w (hne w (by simp))
    obtain ⟨m, hm, hma, hall, hcases⟩ := ih (fun w1 h1 => hne w1 (by simp [h1]))
      (min a mw)
    have hcp : ccdPix (w :: t) = w.pix ++ ccdPix t := by simp [ccdPix]
    refine ⟨m, ?_, le_trans hma (min_le_left _ _), fun p hp => ?_, ?_⟩
    · simp only [List.foldlM_cons, hmw, ok_bind, hm]
    · rw [hcp] at hp
      rcases List.mem_append.1 hp with hp1 | hp2
      · exact le_trans (le_trans hma (min_le_right _ _)) (hlew p hp1)
      · exact hall p hp2
    · rcases hcases with he | hm2
      · rcases min_cases a mw with ⟨he2, -⟩ | ⟨he2, -⟩
        · exact Or.inl (he.trans he2)
        · refine Or.inr ?_
          rw [hcp, List.map_append]
          exact List.mem_append.2 (Or.inl (by rw [he, he2]; exact hmemw))
      · refine Or.inr ?_
        rw [hcp, List.map_append]
        exact List.mem_append.2 (Or.inr hm2)

theorem ccdfold_max_spec (ws : List Win) (hne : ∀ w ∈ ws, w.pix ≠ []) (a : ℚ) :
    ∃ m, ws.foldlM (fun acc w1 => do
        let x ← winMax w1
        Except.ok (max acc x)) a = .ok m ∧ a ≤ m ∧
      (∀ p ∈ ccdPix ws, f32val p ≤ m) ∧
      (m = a ∨ m ∈ (ccdPix ws).map f32val) := by
  induction ws generalizing a with
  | nil => exact ⟨a, rfl, le_refl a, by simp [ccdPix], Or.inl rfl⟩
  | cons w t ih =>
    obtain ⟨mw, hmw, hlew, hmemw⟩ := winMax_spec w (hne w (by simp))
    obtain ⟨m, hm, hma, hall, hcases⟩ := ih (fun w1 h1 => hne w1 (by simp [h1]))
      (max a mw)
    have hcp : ccdPix (w :: t) = w.pix ++ ccdPix t := by simp [ccdPix]
    refine ⟨m, ?_, le_trans (le_max_left _ _) hma, fun p hp => ?_, ?_⟩
    · simp only [List.foldlM_cons, hmw, ok_bind, hm]
    · rw [hcp] at hp
      rcases List.mem_append.1 hp with hp1 | hp2
      · exact le_trans (hlew p hp1) (le_trans (le_max_right _ _) hma)
      · exact hall p hp2
    · rcases hcases with he | hm2
      · rcases max_cases a mw with ⟨he2, -⟩ | ⟨he2, -⟩
        · exact Or.inl (he.trans he2)
        · refine Or.inr ?_
          rw [hcp, List.map_append]
          exact List.mem_append.2 (Or.inl (by rw [he, he2]; exact hmemw))
      · refine Or.inr ?_
        rw [hcp, List.map_append]
        exact List.mem_append.2 (Or.inr hm2)

/-- C9 counterexample: a detector whose single window has zero pixels.
The claim says min/max return the minimum/maximum when the detector has
at least one window, but the numpy reduction over the empty window raises
instead. -/
theorem c9_minmax_counterexample :
    ucmMin ⟨[], [[⟨0, 0, []⟩]], [[(1, 1)]], 1, 1, 1, 1⟩ 0 =
      .error .emptyReduction ∧
    ucmMax ⟨[], [[⟨0, 0, []⟩]], [[(1, 1)]], 1, 1, 1, 1⟩ 0 =
      .error .emptyReduction := by
  exact ⟨by decide, by decide⟩

/-- C9 (amended): for a valid detector index whose windows all have at
least one pixel, `min`/`max` return the minimum/maximum pixel value over
all the detector's windows; with zero windows both return 0.0.  A window
with zero pixels makes the reduction fail instead. -/
theorem c9_minmax_amended (F : UcmF) (nc : Nat) (c : List Win)
    (hc : F.data.get? nc = some c) (hne : ∀ w ∈ c, w.pix ≠ []) :
    (c = [] → ucmMin F nc = .ok 0 ∧ ucmMax F nc = .ok 0) ∧
    (c ≠ [] → ∃ m M, ucmMin F nc = .ok m ∧ ucmMax F nc = .ok M ∧
      (∀ p ∈ ccdPix c, m ≤ f32val p ∧ f32val p ≤ M) ∧
      m ∈ (ccdPix c).map f32val ∧ M ∈ (ccdPix c).map f32val) := by
  constructor
  · rintro rfl
    constructor
    · unfold ucmMin
      rw [hc]
    · unfold ucmMax
      rw [hc]
  · intro hcne
    cases c with
    | nil => exact absurd rfl hcne
    | cons w ws =>
      obtain ⟨m0, hm0, hm0le, hm0mem⟩ := winMin_spec w (hne w (by simp))
      obtain ⟨M0, hM0, hM0le, hM0mem⟩ := winMax_spec w (hne w (by simp))
      obtain ⟨m, hmfold, hma, hmall, hmcases⟩ :=
        ccdfold_min_spec ws (fun w1 h1 => hne w1 (by simp [h1])) m0
      obtain ⟨M, hMfold, hMa, hMall, hMcases⟩ :=
        ccdfold_max_spec ws (fun w1 h1 => hne w1 (by simp [h1])) M0
      have hcp : ccdPix (w :: ws) = w.pix ++ ccdPix ws := by simp [ccdPix]
      refine ⟨m, M, ?_, ?_, fun p hp => ⟨?_, ?_⟩, ?_, ?_⟩
      · unfold ucmMin
        rw [hc]
        dsimp only
        rw [hm0, ok_bind, hmfold]
      · unfold ucmMax
        rw [hc]
        dsimp only
        rw [hM0, ok_bind, hMfold]
      · rw [hcp] at hp
        rcases List.mem_append.1 hp with hp1 | hp2
        · exact le_trans hma (hm0le p hp1)
        · exact hmall p hp2
      · rw [hcp] at hp
        rcases List.mem_append.1 hp with hp1 | hp2
        · exact le_trans (hM0le p hp1) hMa
        · exact hMall p hp2
      · rw [hcp, List.map_append]
        rcases hmcases with he | hm2
        · exact List.mem_append.2 (Or.inl (he ▸ hm0mem))
        · exact List.mem_append.2 (Or.inr hm2)
      · rw [hcp, List.map_append]
        rcases hMcases with he | hm2
        · exact List.mem_append.2 (Or.inl (he ▸ hM0mem))
        · exact List.mem_append.2 (Or.inr hm2)

/-- Witness for C9 (amended) at a concrete two-window detector. -/
theorem c9_minmax_amended_witness :
    (⟨[], [[⟨1, 2, [1088421888, 1077936128]⟩, ⟨1, 1, [1090519040]⟩]],
      [[(1, 1), (1, 1)]], 1, 1, 9, 9⟩ : UcmF).data.get? 0 =
      some [⟨1, 2, [1088421888, 1077936128]⟩, ⟨1, 1, [1090519040]⟩] ∧
    (∀ w ∈ [(⟨1, 2, [1088421888, 1077936128]⟩ : Win), ⟨1, 1, [1090519040]⟩],
      w.pix ≠ []) ∧
    (([(⟨1, 2, [1088421888, 1077936128]⟩ : Win), ⟨1, 1, [1090519040]⟩] :
        List Win) ≠ [] →
      ∃ m M, ucmMin ⟨[], [[⟨1, 2, [1088421888, 1077936128]⟩, ⟨1, 1, [1090519040]⟩]],
          [[(1, 1), (1, 1)]], 1, 1, 9, 9⟩ 0 = .ok m ∧
        ucmMax ⟨[], [[⟨1, 2, [1088421888, 1077936128]⟩, ⟨1, 1, [1090519040]⟩]],
          [[(1, 1), (1, 1)]], 1, 1, 9, 9⟩ 0 = .ok M ∧
        (∀ p ∈ ccdPix [⟨1, 2, [1088421888, 1077936128]⟩, ⟨1, 1, [1090519040]⟩],
          m ≤ f32val p ∧ f32val p ≤ M) ∧
        m ∈ (ccdPix [⟨1, 2, [1088421888, 1077936128]⟩, ⟨1, 1, [1090519040]⟩]).map f32val ∧
        M ∈ (ccdPix [⟨1, 2, [1088421888, 1077936128]⟩, ⟨1, 1, [1090519040]⟩]).map f32val) :=
  ⟨by decide, by decide,
    (c9_minmax_amended _ 0 _ (by decide) (by decide)).2⟩

theorem zip_map_same {α β γ : Type} (f : α → β) (g : α → γ) (l : List α) :
    (l.map f).zip (l.map g) = l.map (fun x => (f x, g x)) := by
  induction l with
  | nil => rfl
  | cons a t ih => simp [ih]

theorem zipWith_map_same {α β γ δ : Type} (f : β → γ → δ) (f1 : α → β)
    (f2 : α → γ) (l : List α) :
    List.zipWith f (l.map f1) (l.map f2) = l.map (fun x => f (f1 x) (f2 x)) := by
  induction l with
  | nil => rfl
  | cons a t ih => simp [ih]

set_option maxHeartbeats 2000000 in
/-- C8: a frame decoded from a stream whose windows are all uint16-encoded
(`iout = 1`) re-encodes with `iout = 0` and a float32 payload for every
window, the payload being exactly the widened in-memory float32 patterns;
only the binning fields are replaced by the last decoded record's. -/
theorem c8_encode_iout0 (recss : List (List WRec)) (lastR : WRec)
    (h : ∀ cc ∈ recss, ∀ r ∈ cc, wfWRec r = true ∧ r.iout = 1)
    (hc : ∀ cc ∈ recss, cc.length < 2^31) (hn : recss.length < 2^31)
    (hlast : recss.flatten.getLast? = some lastR) :
    ∃ F, rucm (wireFrame .native recss) = .ok F ∧
      writeUcm F = .ok (wireFrame .native
        (recss.map (List.map (outRec lastR.bins)))) := by
  have hdec := rucm_wireFrame_ok .native recss lastR
    (fun cc hcc r hr => ⟨(h cc hcc r hr).1, Or.inr (h cc hcc r hr).2⟩) hc hn hlast
  refine ⟨_, hdec, ?_⟩
  have hlastmem : lastR ∈ recss.flatten := by
    obtain ⟨hne, rfl⟩ :=
      List.mem_getLast?_eq_getLast (show lastR ∈ recss.flatten.getLast? from hlast)
    exact List.getLast_mem hne
  obtain ⟨ccl, hccl, hlr⟩ := List.mem_flatten.1 hlastmem
  have hlwf := (h ccl hccl lastR hlr).1
  have hlbins : inI32 lastR.xb = true ∧ inI32 lastR.yb = true ∧
      inI32 lastR.nxt = true ∧ inI32 lastR.nyt = true := by
    simp only [wfWRec, Bool.and_eq_true, decide_eq_true_eq, and_assoc] at hlwf
    exact ⟨hlwf.2.2.2.2.1, hlwf.2.2.2.2.2.1, hlwf.2.2.2.2.2.2.1,
      hlwf.2.2.2.2.2.2.2.1⟩
  set data := recss.map (List.map WRec.win) with hdata
  set off := recss.map (List.map WRec.off) with hoff
  have hol : off.length = data.length := by
    rw [hdata, hoff]
    simp
  have hzipeq : data.zip off = recss.map (fun cc =>
      (cc.map WRec.win, cc.map WRec.off)) := by
    rw [hdata, hoff]
    exact zip_map_same _ _ recss
  have hall : (data.zip off).all (fun e =>
      decide (e.1.length < 2^31) && decide (e.1.length ≤ e.2.length) &&
      e.1.all wfWin && e.2.all (fun o => inI32 o.1 && inI32 o.2)) = true := by
    rw [hzipeq, List.all_eq_true]
    intro e he
    obtain ⟨cc, hcc, rfl⟩ := List.mem_map.1 he
    simp only [Bool.and_eq_true, decide_eq_true_eq, List.length_map, and_assoc]
    refine ⟨hc cc hcc, le_refl _, ?_, ?_⟩
    · rw [List.all_eq_true]
      intro w hw
      obtain ⟨r, hr, rfl⟩ := List.mem_map.1 hw
      have hrwf := (h cc hcc r hr).1
      have hri := (h cc hcc r hr).2
      simp only [wfWRec, Bool.and_eq_true, decide_eq_true_eq, and_assoc] at hrwf
      obtain ⟨-, -, hnx, hny, -, -, -, -, hlen, hpix⟩ := hrwf
      rw [if_pos hri, List.all_eq_true] at hpix
      simp only [wfWin, WRec.win, if_pos hri, Bool.and_eq_true,
        decide_eq_true_eq, and_assoc, List.length_map]
      refine ⟨hnx, hny, by rw [hlen, Nat.mul_comm], ?_⟩
      rw [List.all_eq_true]
      intro p hp
      obtain ⟨u, hu, rfl⟩ := List.mem_map.1 hp
      have := hpix u hu
      simp only [decide_eq_true_eq] at this
      have := f32OfNat_lt u (by omega)
      simp only [decide_eq_true_eq]
      omega
    · rw [List.all_eq_true]
      intro o ho
      obtain ⟨r, hr, rfl⟩ := List.mem_map.1 ho
      have hrwf := (h cc hcc r hr).1
      simp only [wfWRec, Bool.and_eq_true, decide_eq_true_eq, and_assoc] at hrwf
      simp only [WRec.off, Bool.and_eq_true]
      exact ⟨hrwf.1, hrwf.2.1⟩
  have hDB := writeCCDs_ok lastR.xb lastR.yb lastR.nxt lastR.nyt data off hol hall
    hlbins.1 hlbins.2.1 hlbins.2.2.1 hlbins.2.2.2
  have hccd_eq : List.zipWith (fun c os =>
      wireCCD .native (List.zipWith (toRec lastR.xb lastR.yb lastR.nxt lastR.nyt) c os))
      data off =
      (recss.map (List.map (outRec lastR.bins))).map (wireCCD .native) := by
    rw [hdata, hoff, zipWith_map_same, List.map_map]
    refine List.map_congr_left (fun cc hcc => ?_)
    simp only [Function.comp_apply]
    congr 1
    rw [zipWith_map_same]
    refine List.map_congr_left (fun r hr => ?_)
    have hri := (h cc hcc r hr).2
    simp [toRec, outRec, WRec.win, WRec.off, WRec.bins, if_pos hri]
  rw [hccd_eq] at hDB
  simp [writeUcm, writeHItems, wireFrame,
    pkI32_i32b .native MAGIC (by decide),
    pkI32_i32b .native 0 (by decide),
    pkI32_i32b .native (recss.length : Int) (inI32_natCast _ hn),
    hDB, ok_bind, List.append_assoc, hdata]

theorem c8_encode_iout0_witness :
    ∃ F, rucm (wireFrame .native [[(⟨1, 2, 1, 1, 2, 3, 100, 200, 1, [7]⟩ : WRec)]]) = .ok F ∧
      writeUcm F = .ok (wireFrame .native
        ([[(⟨1, 2, 1, 1, 2, 3, 100, 200, 1, [7]⟩ : WRec)]].map
          (List.map (outRec (⟨1, 2, 1, 1, 2, 3, 100, 200, 1, [7]⟩ : WRec).bins)))) :=
  c8_encode_iout0 [[⟨1, 2, 1, 1, 2, 3, 100, 200, 1, [7]⟩]] ⟨1, 2, 1, 1, 2, 3, 100, 200, 1, [7]⟩
    (by decide) (by decide) (by decide) rfl

theorem specPayload_native (t : Int) (v : HVal) :
    specPayload .native t v = writeHVal t v := rfl

theorem error_bind {α β : Type} (e : UErr) (f : α → Except UErr β) :
    (Except.error e >>= f) = Except.error e := rfl

theorem specItem_native (name : List Nat) (it : HItem) :
    specItem .native name it = writeHItem name it := by
  unfold specItem writeHItem write_string
  cases hn : pkI32 .native (name.length : Int) with
  | error e => simp [hn, error_bind]
  | ok ln =>
    cases ht : pkI32 .native it.itype with
    | error e => simp [hn, ht, ok_bind, error_bind]
    | ok tb =>
      cases hc : pkI32 .native (it.comment.length : Int) with
      | error e => simp [hn, ht, hc, ok_bind, error_bind]
      | ok lc =>
        cases hv : writeHVal it.itype it.value with
        | error e => simp [hn, ht, hc, hv, specPayload_native, ok_bind, error_bind]
        | ok vb => simp [hn, ht, hc, hv, specPayload_native, ok_bind,
            List.append_assoc]

theorem specItems_native (l : List (List Nat × HItem)) :
    specItems .native l = writeHItems l := by
  induction l with
  | nil => rfl
  | cons a t ih =>
    obtain ⟨name, it⟩ := a
    simp only [specItems, writeHItems, specItem_native, ih]

theorem specWin_native (o : Int × Int) (w : Win) (xb yb nxt nyt : Int) :
    specWin .native o w xb yb nxt nyt = writeWin o w xb yb nxt nyt := rfl

theorem specWins_native (xb yb nxt nyt : Int) (ws : List Win)
    (os : List (Int × Int)) :
    specWins .native xb yb nxt nyt ws os = writeWins xb yb nxt nyt ws os := by
  induction ws generalizing os with
  | nil => rfl
  | cons w t ih =>
    cases os with
    | nil => rfl
    | cons o os1 => simp only [specWins, writeWins, specWin_native, ih]

theorem specCCDs_native (xb yb nxt nyt : Int) (cs : List (List Win))
    (offs : List (List (Int × Int))) :
    specCCDs .native xb yb nxt nyt cs offs = writeCCDs xb yb nxt nyt cs offs := by
  induction cs generalizing offs with
  | nil => rfl
  | cons c cs1 ih =>
    simp only [specCCDs, writeCCDs, specWins_native, ih]

theorem specWrite_native_eq (F : UcmF) : specWrite .native F = writeUcm F := by
  unfold specWrite writeUcm
  rw [specItems_native, specCCDs_native]

/-- C10: the encoder is byte-order oblivious.  Decoding a byte-swapped
stream yields exactly the frame its native-order counterpart yields — the
detected order is not retained in the frame — and for every frame the
source encoder's output coincides with the spec-side serializer fixed at
native order, so a later encode always emits every multi-byte field in
native order. -/
theorem c10_native_order_encode (recss : List (List WRec)) (lastR : WRec)
    (h : ∀ cc ∈ recss, ∀ r ∈ cc, wfWRec r = true ∧ (r.iout = 0 ∨ r.iout = 1))
    (hc : ∀ cc ∈ recss, cc.length < 2^31) (hn : recss.length < 2^31)
    (hlast : recss.flatten.getLast? = some lastR) :
    rucm (wireFrame .big recss) = rucm (wireFrame .native recss) ∧
    ∀ G : UcmF, writeUcm G = specWrite .native G := by
  constructor
  · rw [rucm_wireFrame_ok .big recss lastR h hc hn hlast,
      rucm_wireFrame_ok .native recss lastR h hc hn hlast]
  · exact fun G => (specWrite_native_eq G).symm

theorem c10_native_order_encode_witness :
    rucm (wireFrame .big [[(⟨0, 0, 1, 1, 1, 1, 8, 8, 0, [5]⟩ : WRec)]]) =
      rucm (wireFrame .native [[(⟨0, 0, 1, 1, 1, 1, 8, 8, 0, [5]⟩ : WRec)]]) ∧
    ∀ G : UcmF, writeUcm G = specWrite .native G :=
  c10_native_order_encode [[⟨0, 0, 1, 1, 1, 1, 8, 8, 0, [5]⟩]]
    ⟨0, 0, 1, 1, 1, 1, 8, 8, 0, [5]⟩ (by decide) (by decide) (by decide) rfl
